import Mathlib

/-!
Verification of the git-shadow commit transaction engine against its Rust
source.  Strings and file contents are modelled as lists of characters,
file systems as association lists and maps, and the external processes
(git, the OS process table, the RFC3339 parser, the 3-way merge tool) as
explicit environment parameters.  Every definition mirrors one function
of the source tree (`src/path.rs`, `src/lock.rs`, `src/config.rs`,
`src/hooks/pre_commit.rs`, `src/hooks/post_commit.rs`,
`src/commands/restore.rs`, `src/commands/rebase.rs`).
-/

namespace GitShadow

/-- Repository strings (paths, file contents, lock file text) as character lists. -/
abbrev Str := List Char

/-! Path codec (`src/path.rs`).
`encode_path` is `normalized.replace('%', "%25").replace('/', "%2F")`;
`decode_path` is `encoded.replace("%2F", "/").replace("%25", "%")`.
Each `replace` pass is modelled as its own recursive function, in the
same order as the source. -/

/-- First pass of `encode_path`: replace every `%` with `%25`. -/
def pctEncode : Str → Str
  | [] => []
  | c :: rest => (if c = '%' then ['%', '2', '5'] else [c]) ++ pctEncode rest

/-- Second pass of `encode_path`: replace every `/` with `%2F`. -/
def slashEncode : Str → Str
  | [] => []
  | c :: rest => (if c = '/' then ['%', '2', 'F'] else [c]) ++ slashEncode rest

/-- `path::encode_path`. -/
def encode_path (normalized : Str) : Str :=
  slashEncode (pctEncode normalized)

/-- First pass of `decode_path`: replace every (leftmost, non-overlapping)
`%2F` with `/`. -/
def slashDecode : Str → Str
  | [] => []
  | [c] => [c]
  | [c₁, c₂] => [c₁, c₂]
  | c₁ :: c₂ :: c₃ :: rest =>
    if c₁ = '%' ∧ c₂ = '2' ∧ c₃ = 'F' then '/' :: slashDecode rest
    else c₁ :: slashDecode (c₂ :: c₃ :: rest)

/-- Second pass of `decode_path`: replace every `%25` with `%`. -/
def pctDecode : Str → Str
  | [] => []
  | [c] => [c]
  | [c₁, c₂] => [c₁, c₂]
  | c₁ :: c₂ :: c₃ :: rest =>
    if c₁ = '%' ∧ c₂ = '2' ∧ c₃ = '5' then '%' :: pctDecode rest
    else c₁ :: pctDecode (c₂ :: c₃ :: rest)

/-- `path::decode_path`. -/
def decode_path (encoded : Str) : Str :=
  pctDecode (slashDecode encoded)

/-- The per-character block produced by the `%`-encoding pass. -/
def pctBlock (c : Char) : Str := if c = '%' then ['%', '2', '5'] else [c]

/-! Path normalization (`path::normalize_path`). -/

/-- One character pass of `input.replace('\\', "/")`. -/
def replaceBackslash : Str → Str
  | [] => []
  | c :: rest => (if c = '\\' then '/' else c) :: replaceBackslash rest

/-- `root_str.trim_end_matches('/')`. -/
def trimEndSlashes (s : Str) : Str :=
  (s.reverse.dropWhile (fun c => c = '/')).reverse

/-- The `while let Some(stripped) = result.strip_prefix("./")` loop. -/
def stripDotSlash : Str → Str
  | '.' :: '/' :: rest => stripDotSlash rest
  | s => s

/-- Error of `normalize_path` (the `bail!("path ... is not inside repository ...")`). -/
inductive PathErr where
  | OutsideRepo
deriving Repr, DecidableEq

/-- `path::normalize_path`: convert backslashes, strip the repository root
from absolute inputs (failing when the root string is not a prefix), then
strip leading `./` sequences. -/
def normalize_path (input repoRoot : Str) : Except PathErr Str :=
  let input1 := replaceBackslash input
  let step : Except PathErr Str :=
    if input1.head? = some '/' then
      let rootStr := trimEndSlashes (replaceBackslash repoRoot)
      if rootStr.isPrefixOf input1 then
        Except.ok ((input1.drop rootStr.length).dropWhile (fun c => c = '/'))
      else Except.error PathErr.OutsideRepo
    else Except.ok input1
  match step with
  | Except.error e => Except.error e
  | Except.ok rel => Except.ok (stripDotSlash rel)

/-! Errors (`src/error.rs`), restricted to the kinds the verified
operations can produce.  `Io` stands for any propagated `std::io` or
`anyhow` failure whose payload the claims do not inspect. -/

inductive ShadowErr where
  | LockHeld (pid : Nat) (timestamp : Str)
  | StaleLock (pid : Nat)
  | StashRemaining
  | PartialStage (path : Str)
  | BaselineMissing (path : Str)
  | FileMissing (path : Str)
  | UnstageFailure (path : Str)
  | GitCommand
  | Io
deriving Repr, DecidableEq

/-! Lock (`src/lock.rs`).  The process table probe (`libc::kill(pid, 0)`),
the current process id, the RFC3339 timestamp parser of `chrono`, and the
current wall-clock time are external to the program and enter as the
fields of `LockEnv`.  The lock file itself is the optional raw text
content of `<shadow>/lock`. -/

structure LockInfo where
  pid : Nat
  timestamp : Str
deriving Repr, DecidableEq

structure LockEnv where
  /-- `std::process::id()`. -/
  myPid : Nat
  /-- `is_process_alive`: the zero-signal liveness probe. -/
  alive : Nat → Bool
  /-- `chrono::DateTime::parse_from_rfc3339` followed by `to_rfc3339`,
  abstracted: `none` models a parse failure. -/
  parseTs : Str → Option Str
  /-- `Utc::now().to_rfc3339()`. -/
  now : Str

/-- `val.parse::<u32>()`: optional leading `+`, then one or more digits,
no overflow past `u32::MAX`. -/
def parseU32 (s : Str) : Option Nat :=
  let t := match s with
    | '+' :: rest => rest
    | _ => s
  if t ≠ [] ∧ t.all (fun c => c.isDigit) then
    let n := t.foldl (fun acc c => acc * 10 + (c.toNat - 48)) 0
    if n < 4294967296 then some n else none
  else none

/-- Split on `'\n'`, keeping empty segments. -/
def splitNl : Str → List Str
  | [] => [[]]
  | c :: rest =>
    if c = '\n' then [] :: splitNl rest
    else
      match splitNl rest with
      | [] => [[c]]
      | l :: ls => (c :: l) :: ls

/-- Rust `str::lines`: split on `'\n'`, drop a final empty segment
produced by a trailing newline, and strip a trailing `'\r'` per line. -/
def linesOf (s : Str) : List Str :=
  let ls := splitNl s
  let ls := if ls.getLast? = some [] then ls.dropLast else ls
  ls.map (fun l => if l.getLast? = some '\r' then l.dropLast else l)

/-- `line.strip_prefix(pre)`. -/
def stripPre (pre s : Str) : Option Str :=
  if pre.isPrefixOf s then some (s.drop pre.length) else none

/-- The line loop of `parse_lock`; a `pid=` line whose value fails to
parse, or a `timestamp=` line whose value `chrono` rejects, aborts the
whole parse (the source propagates with `?`). -/
def parseLockLines (parseTs : Str → Option Str) :
    List Str → Option Nat → Option Str → Option (Option Nat × Option Str)
  | [], pid, ts => some (pid, ts)
  | line :: rest, pid, ts =>
    match stripPre ("pid=".toList) line with
    | some v =>
      match parseU32 v with
      | some n => parseLockLines parseTs rest (some n) ts
      | none => none
    | none =>
      match stripPre ("timestamp=".toList) line with
      | some v =>
        match parseTs v with
        | some t => parseLockLines parseTs rest pid (some t)
        | none => none
      | none => parseLockLines parseTs rest pid ts

/-- `lock::parse_lock`: both a pid and a timestamp line must be present
and well-formed. -/
def parse_lock (parseTs : Str → Option Str) (content : Str) : Option LockInfo :=
  match parseLockLines parseTs (linesOf content) none none with
  | some (some pid, some ts) => some ⟨pid, ts⟩
  | _ => none

/-- The text `acquire_lock` writes: `format!("pid={}\ntimestamp={}", id, now)`. -/
def lockContent (pid : Nat) (ts : Str) : Str :=
  ("pid=".toList) ++ (toString pid).toList ++ ('\n' :: ("timestamp=".toList)) ++ ts

/-- `lock::acquire_lock` as a function from the current lock-file content
to the new lock-file content (or an error).  If the file exists and
parses: reentrant success for our own pid, `LockHeld` for a live other
pid, `StaleLock` for a dead one.  If the file is absent or fails to
parse, a fresh `pid`/`timestamp` record is written. -/
def acquire_lock (env : LockEnv) (lockFile : Option Str) :
    Except ShadowErr (Option Str) :=
  match lockFile with
  | some content =>
    match parse_lock env.parseTs content with
    | some info =>
      if info.pid = env.myPid then Except.ok (some content)
      else if env.alive info.pid then
        Except.error (ShadowErr.LockHeld info.pid info.timestamp)
      else Except.error (ShadowErr.StaleLock info.pid)
    | none => Except.ok (some (lockContent env.myPid env.now))
  | none => Except.ok (some (lockContent env.myPid env.now))

/-! Registry (`src/config.rs`). -/

inductive FileType where
  | Overlay
  | Phantom
deriving Repr, DecidableEq

inductive ExcludeMode where
  | GitInfoExclude
  | None
deriving Repr, DecidableEq

structure FileEntry where
  file_type : FileType
  baseline_commit : Option Str
  exclude_mode : ExcludeMode
  is_directory : Bool
  added_at : Str
deriving Repr, DecidableEq

/-- `ShadowConfig`: the `files` map is the `BTreeMap` in iteration order
(sorted by key; the proofs only assume the keys are distinct). -/
structure ShadowConfig where
  version : Nat
  files : List (Str × FileEntry)
deriving Repr, DecidableEq

/-! JSON documents, for the serde round-trip behaviour of
`ShadowConfig::load` / `ShadowConfig::save`.  `serde_json` values are an
inductive; deserialization of a derived struct reads the known fields
from an object and ignores every other field; serialization emits only
known fields, honouring `skip_serializing_if`. -/

inductive Json where
  | str (s : Str)
  | num (n : Nat)
  | bool (b : Bool)
  | obj (fields : List (Str × Json))

/-- Field lookup in a JSON object (first occurrence). -/
def jLookup (k : Str) : List (Str × Json) → Option Json
  | [] => none
  | kv :: rest => if kv.1 = k then some kv.2 else jLookup k rest

/-- Top-level field lookup in a JSON document. -/
def jTop (k : Str) : Json → Option Json
  | Json.obj fs => jLookup k fs
  | _ => none

def decodeFileType : Json → Option FileType
  | Json.str s =>
    if s = ("overlay".toList) then some FileType.Overlay
    else if s = ("phantom".toList) then some FileType.Phantom
    else none
  | _ => none

def decodeExcludeMode : Json → Option ExcludeMode
  | Json.str s =>
    if s = ("git_info_exclude".toList) then some ExcludeMode.GitInfoExclude
    else if s = ("none".toList) then some ExcludeMode.None
    else none
  | _ => none

/-- An `Option<String>` field: absent is `None`, a string is `Some`,
anything else is a type error. -/
def decodeOptStr : Option Json → Option (Option Str)
  | none => some none
  | some (Json.str s) => some (some s)
  | some _ => none

/-- A `#[serde(default)] bool` field. -/
def decodeBoolD : Option Json → Option Bool
  | none => some false
  | some (Json.bool b) => some b
  | some _ => none

/-- A required string field. -/
def decodeStr : Option Json → Option Str
  | some (Json.str s) => some s
  | _ => none

/-- Derived deserialization of `FileEntry`; unknown fields in the object
are ignored. -/
def decodeFileEntry : Json → Option FileEntry
  | Json.obj fs =>
    match jLookup ("type".toList) fs with
    | none => none
    | some tj =>
      match decodeFileType tj with
      | none => none
      | some ft =>
        match decodeOptStr (jLookup ("baseline_commit".toList) fs) with
        | none => none
        | some bc =>
          match jLookup ("exclude_mode".toList) fs with
          | none => none
          | some ej =>
            match decodeExcludeMode ej with
            | none => none
            | some em =>
              match decodeBoolD (jLookup ("is_directory".toList) fs) with
              | none => none
              | some isDir =>
                match decodeStr (jLookup ("added_at".toList) fs) with
                | none => none
                | some addedAt => some ⟨ft, bc, em, isDir, addedAt⟩
  | _ => none

def decodeFilesList : List (Str × Json) → Option (List (Str × FileEntry))
  | [] => some []
  | (k, j) :: rest =>
    match decodeFileEntry j with
    | none => none
    | some e =>
      match decodeFilesList rest with
      | none => none
      | some l => some ((k, e) :: l)

/-- Derived deserialization of `ShadowConfig` (the parsing step of
`ShadowConfig::load`); unknown top-level fields are ignored. -/
def ShadowConfig.fromJson : Json → Option ShadowConfig
  | Json.obj fs =>
    match jLookup ("version".toList) fs with
    | some (Json.num v) =>
      match jLookup ("files".toList) fs with
      | some (Json.obj fj) =>
        match decodeFilesList fj with
        | some l => some ⟨v, l⟩
        | none => none
      | _ => none
    | _ => none
  | _ => none

/-- Derived serialization of `FileEntry`: `baseline_commit` omitted when
`None`, `is_directory` omitted when `false`. -/
def FileEntry.toJson (e : FileEntry) : Json :=
  Json.obj
    ([(("type".toList),
        Json.str (match e.file_type with
          | FileType.Overlay => ("overlay".toList)
          | FileType.Phantom => ("phantom".toList)))]
      ++ (match e.baseline_commit with
          | some c => [(("baseline_commit".toList), Json.str c)]
          | none => [])
      ++ [(("exclude_mode".toList),
            Json.str (match e.exclude_mode with
              | ExcludeMode.GitInfoExclude => ("git_info_exclude".toList)
              | ExcludeMode.None => ("none".toList)))]
      ++ (if e.is_directory then [(("is_directory".toList), Json.bool true)] else [])
      ++ [(("added_at".toList), Json.str e.added_at)])

/-- Derived serialization of `ShadowConfig` (the document
`ShadowConfig::save` writes). -/
def ShadowConfig.toJson (c : ShadowConfig) : Json :=
  Json.obj
    [(("version".toList), Json.num c.version),
     (("files".toList), Json.obj (c.files.map (fun kv => (kv.1, FileEntry.toJson kv.2))))]

/-! The file system and git state visible to the hooks.  The worktree,
baseline store and git index are maps from paths to contents; the stash
is the listing of the `stash/` directory (encoded filename to content);
`dirs` is the set of worktree directories that exist (only the direct
parent of a path is ever queried); the lock is the optional content of
the lock file.  `trace` records every `git add` / unstage invocation so
that best-effort re-staging during rollback is observable. -/

inductive GitOp where
  | stage (path : Str)
  | unstage (path : Str)
deriving Repr, DecidableEq

structure SystemState where
  worktree : Str → Option Str
  dirs : List Str
  stashDirExists : Bool
  stash : List (Str × Str)
  baselines : Str → Option Str
  index : Str → Option Str
  lock : Option Str
  trace : List GitOp

/-- Association-list lookup (first match). -/
def findVal {α : Type} (k : Str) : List (Str × α) → Option α
  | [] => none
  | kv :: rest => if kv.1 = k then some kv.2 else findVal k rest

/-- Remove all entries with the given key (`fs::remove_file`). -/
def eraseKey {α : Type} (k : Str) : List (Str × α) → List (Str × α)
  | [] => []
  | kv :: rest => if kv.1 = k then eraseKey k rest else kv :: eraseKey k rest

/-- Overwrite-or-insert (`atomic_write` replacing a directory entry). -/
def setKey {α : Type} (k : Str) (v : α) (l : List (Str × α)) : List (Str × α) :=
  eraseKey k l ++ [(k, v)]

/-- The directory component of a path: everything before the last `/`,
empty for a top-level filename. -/
def parentOf (p : Str) : Str :=
  ((p.reverse.dropWhile (fun c => c ≠ '/')).reverse).dropLast

def wtSet (s : SystemState) (p c : Str) : SystemState :=
  { s with worktree := fun q => if q = p then some c else s.worktree q }

/-- A plain file write can succeed: the parent directory exists (the
repository root always does), or the file already exists (which
witnesses its parent directory). -/
def canWrite (s : SystemState) (p : Str) : Prop :=
  parentOf p = [] ∨ parentOf p ∈ s.dirs ∨ (s.worktree p).isSome = true

instance (s : SystemState) (p : Str) : Decidable (canWrite s p) := by
  unfold canWrite
  infer_instance

/-- `std::fs::write` to a worktree path: succeeds exactly when the parent
directory exists or the file already does. -/
def wtWrite (s : SystemState) (p c : Str) : Option SystemState :=
  if canWrite s p then some (wtSet s p c) else none

/-- `std::fs::create_dir_all` for the parent of a restored path. -/
def mkdirAll (s : SystemState) (d : Str) : SystemState :=
  if d = [] then s else { s with dirs := d :: s.dirs }

/-- `fs_util::atomic_write` into `stash/<key>`: the temp file is created
in the stash directory, so the write fails if that directory is absent. -/
def stashWrite (s : SystemState) (k v : Str) : Option SystemState :=
  if s.stashDirExists = true then some { s with stash := setKey k v s.stash } else none

def stashRemove (s : SystemState) (k : Str) : SystemState :=
  { s with stash := eraseKey k s.stash }

/-- `lock::release_lock`: remove the lock file if present. -/
def releaseLock (s : SystemState) : SystemState := { s with lock := none }

/-- Environment of a hook run: the lock environment plus the observable
behaviour of the `git` subprocesses (`status --porcelain`, `add`, and the
unstage strategies). -/
structure Env where
  lockEnv : LockEnv
  /-- `GitRepo::staging_status`: `(index_differs_from_head, worktree_differs_from_index)`. -/
  stagingStatus : Str → Bool × Bool
  /-- Whether `git add <path>` exits successfully. -/
  stageOk : Str → Bool
  /-- Whether any of the three unstage strategies exits successfully. -/
  unstageOk : Str → Bool

/-- `GitRepo::add`: records the invocation and, on success, stages the
current worktree content of the path. -/
def gitAdd (env : Env) (s : SystemState) (p : Str) : Bool × SystemState :=
  let s1 := { s with trace := s.trace ++ [GitOp.stage p] }
  if env.stageOk p then
    match s1.worktree p with
    | some c =>
      (true, { s1 with index := fun q => if q = p then some c else s1.index q })
    | none => (false, s1)
  else (false, s1)

/-- `GitRepo::unstage_phantom`: records the invocation and, on success,
drops the index entry. -/
def gitUnstage (env : Env) (s : SystemState) (p : Str) : Bool × SystemState :=
  let s1 := { s with trace := s.trace ++ [GitOp.unstage p] }
  if env.unstageOk p then
    (true, { s1 with index := fun q => if q = p then none else s1.index q })
  else (false, s1)

/-! The pre-commit hook (`src/hooks/pre_commit.rs`). -/

/-- The journal of `PreCommitTransaction`. -/
structure Txn where
  stashedOverlays : List Str
  stashedPhantoms : List Str
  overwritten : List Str
deriving Repr, DecidableEq

def Txn.new : Txn := ⟨[], [], []⟩

/-- `process_overlay`: stash the worktree bytes, restore the baseline
over the worktree, stage the path.  Errors carry the state and journal
at the point of failure (the Rust journal is mutated in place). -/
def processOverlay (env : Env) (s : SystemState) (tx : Txn) (p : Str) :
    Except (ShadowErr × SystemState × Txn) (SystemState × Txn) :=
  match s.worktree p with
  | none => Except.error (ShadowErr.Io, s, tx)
  | some content =>
    match stashWrite s (encode_path p) content with
    | none => Except.error (ShadowErr.Io, s, tx)
    | some s1 =>
      let tx1 : Txn := { tx with stashedOverlays := tx.stashedOverlays ++ [p] }
      match s1.baselines (encode_path p) with
      | none => Except.error (ShadowErr.Io, s1, tx1)
      | some b =>
        match wtWrite s1 p b with
        | none => Except.error (ShadowErr.Io, s1, tx1)
        | some s2 =>
          let tx2 : Txn := { tx1 with overwritten := tx1.overwritten ++ [p] }
          match gitAdd env s2 p with
          | (true, s3) => Except.ok (s3, tx2)
          | (false, s3) => Except.error (ShadowErr.GitCommand, s3, tx2)

/-- `process_phantom`: directory phantoms only unstage; file phantoms
stash the worktree bytes (when the file exists) and unstage. -/
def processPhantom (env : Env) (s : SystemState) (tx : Txn) (p : Str) (e : FileEntry) :
    Except (ShadowErr × SystemState × Txn) (SystemState × Txn) :=
  if e.is_directory = true then
    match gitUnstage env s p with
    | (true, s1) => Except.ok (s1, tx)
    | (false, s1) => Except.error (ShadowErr.UnstageFailure p, s1, tx)
  else
    match s.worktree p with
    | some content =>
      match stashWrite s (encode_path p) content with
      | none => Except.error (ShadowErr.Io, s, tx)
      | some s1 =>
        let tx1 : Txn := { tx with stashedPhantoms := tx.stashedPhantoms ++ [p] }
        match gitUnstage env s1 p with
        | (true, s2) => Except.ok (s2, tx1)
        | (false, s2) => Except.error (ShadowErr.UnstageFailure p, s2, tx1)
    | none =>
      match gitUnstage env s p with
      | (true, s1) => Except.ok (s1, tx)
      | (false, s1) => Except.error (ShadowErr.UnstageFailure p, s1, tx)

/-- `process_files`: iterate the registry in order, dispatching on the
entry type, aborting on the first failure. -/
def processFiles (env : Env) :
    List (Str × FileEntry) → SystemState → Txn →
    Except (ShadowErr × SystemState × Txn) (SystemState × Txn)
  | [], s, tx => Except.ok (s, tx)
  | (p, e) :: rest, s, tx =>
    match (match e.file_type with
           | FileType.Overlay => processOverlay env s tx p
           | FileType.Phantom => processPhantom env s tx p e) with
    | Except.error r => Except.error r
    | Except.ok (s1, tx1) => processFiles env rest s1 tx1

/-- One iteration of `PreCommitTransaction::rollback`: if a stash entry
for the path exists, write it back to the worktree (failure ignored) and
delete the stash entry. -/
def restoreStashed (s : SystemState) (p : Str) : SystemState :=
  match findVal (encode_path p) s.stash with
  | none => s
  | some c =>
    let s1 := match wtWrite s p c with
      | some s' => s'
      | none => s
    stashRemove s1 (encode_path p)

/-- `PreCommitTransaction::rollback`: restore every stashed overlay and
phantom, then best-effort re-stage every overwritten overlay. -/
def rollback (env : Env) (tx : Txn) (s : SystemState) : SystemState :=
  let s1 := (tx.stashedOverlays ++ tx.stashedPhantoms).foldl restoreStashed s
  tx.overwritten.foldl (fun s' p => (gitAdd env s' p).2) s1

/-- The per-entry part of `run_hard_checks`: every overlay must have a
worktree file and a baseline. -/
def hardChecksFiles (s : SystemState) : List (Str × FileEntry) → Except ShadowErr Unit
  | [] => Except.ok ()
  | (p, e) :: rest =>
    match e.file_type with
    | FileType.Overlay =>
      if (s.worktree p).isSome = true then
        if (s.baselines (encode_path p)).isSome = true then hardChecksFiles s rest
        else Except.error (ShadowErr.BaselineMissing p)
      else Except.error (ShadowErr.FileMissing p)
    | FileType.Phantom => hardChecksFiles s rest

/-- `run_hard_checks`: reject stash remnants, then check each overlay. -/
def run_hard_checks (s : SystemState) (cfg : ShadowConfig) : Except ShadowErr Unit :=
  if s.stashDirExists = true ∧ s.stash ≠ [] then Except.error ShadowErr.StashRemaining
  else hardChecksFiles s cfg.files

/-- `detect_partial_staging`: the first overlay whose staging status is
`(true, true)` aborts the transaction. -/
def detectPartialStaging (env : Env) : List (Str × FileEntry) → Except ShadowErr Unit
  | [] => Except.ok ()
  | (p, e) :: rest =>
    match e.file_type with
    | FileType.Overlay =>
      if (env.stagingStatus p).1 = true ∧ (env.stagingStatus p).2 = true then
        Except.error (ShadowErr.PartialStage p)
      else detectPartialStaging env rest
    | FileType.Phantom => detectPartialStaging env rest

/-- `hooks::pre_commit::handle`: acquire the lock, run the checks,
transform the entries; on a transform failure roll back and release the
lock; on success keep the lock for post-commit.  (The non-fatal drift
warnings of `run_soft_checks` only print and are omitted.) -/
def preCommitHandle (env : Env) (cfg : ShadowConfig) (s : SystemState) :
    Except ShadowErr Unit × SystemState :=
  match acquire_lock env.lockEnv s.lock with
  | Except.error e => (Except.error e, s)
  | Except.ok lock' =>
    let s0 : SystemState := { s with lock := lock' }
    if cfg.files = [] then (Except.ok (), releaseLock s0)
    else
      match run_hard_checks s0 cfg with
      | Except.error e => (Except.error e, releaseLock s0)
      | Except.ok _ =>
        match detectPartialStaging env cfg.files with
        | Except.error e => (Except.error e, releaseLock s0)
        | Except.ok _ =>
          match processFiles env cfg.files s0 Txn.new with
          | Except.error (e, s1, tx) => (Except.error e, releaseLock (rollback env tx s1))
          | Except.ok (s1, _) => (Except.ok (), s1)

/-! The post-commit hook (`src/hooks/post_commit.rs`). -/

/-- The per-file loop of the post-commit hook: decode each stash
filename, write the bytes to the worktree (no parent directories are
created), delete the stash entry on success, collect the decoded path in
the failure list otherwise. -/
def postRestore : List (Str × Str) → SystemState → SystemState × List Str
  | [], s => (s, [])
  | kv :: rest, s =>
    let p := decode_path kv.1
    match wtWrite s p kv.2 with
    | some s1 => postRestore rest (stashRemove s1 kv.1)
    | none =>
      let r := postRestore rest s
      (r.1, p :: r.2)

/-- `hooks::post_commit::handle`: return untouched when the stash
directory is absent; release the lock when the stash is empty; otherwise
restore each file best-effort and release the lock only when no file
failed. -/
def postCommitHandle (s : SystemState) : Except ShadowErr Unit × SystemState :=
  if s.stashDirExists = true then
    if s.stash = [] then (Except.ok (), releaseLock s)
    else
      let r := postRestore s.stash s
      if r.2 = [] then (Except.ok (), releaseLock r.1) else (Except.ok (), r.1)
  else (Except.ok (), s)

/-! Restore (`src/commands/restore.rs`). -/

/-- The sweep loop of `restore::run`: for every stash entry (skipping
entries that do not match the optional target path) create the parent
directory, write the bytes back, and delete the stash entry; any I/O
failure aborts the run (`?` propagation). -/
def restoreSweep (target : Option Str) :
    List (Str × Str) → SystemState → Except (ShadowErr × SystemState) SystemState
  | [], s => Except.ok s
  | kv :: rest, s =>
    let p := decode_path kv.1
    if target = none ∨ target = some p then
      let s1 := mkdirAll s (parentOf p)
      match wtWrite s1 p kv.2 with
      | some s2 => restoreSweep target rest (stashRemove s2 kv.1)
      | none => Except.error (ShadowErr.Io, s1)
    else restoreSweep target rest s

/-- `restore::run`: sweep the stash (if the directory exists), then
remove the lock file. -/
def restoreRun (target : Option Str) (s : SystemState) :
    Except ShadowErr Unit × SystemState :=
  if s.stashDirExists = true then
    match restoreSweep target s.stash s with
    | Except.error (e, s1) => (Except.error e, s1)
    | Except.ok s1 => (Except.ok (), releaseLock s1)
  else (Except.ok (), releaseLock s)

/-! Rebase (`src/commands/rebase.rs`).  The 3-way merge shells out to
`git merge-file` and the HEAD content comes from `git show`; both are
environment parameters. -/

structure MergeEnv where
  /-- `merge::three_way_merge base ours theirs`: merged content and the
  conflict flag. -/
  mergeFn : Str → Str → Str → Str × Bool
  /-- `GitRepo::show_file("HEAD", path)`. -/
  showFile : Str → Option Str
  /-- `GitRepo::head_commit()`, resolved once by `rebase::run`. -/
  headCommit : Str

/-- `rebase::rebase_file`: read worktree and baseline, fetch the HEAD
content; no-op when the baseline did not change; otherwise merge, write
the merged content to the worktree, atomically replace the baseline and
update `baseline_commit` — unconditionally on the conflict flag. -/
def rebase_file (menv : MergeEnv) (cfg : ShadowConfig) (s : SystemState) (p : Str) :
    Except (ShadowErr × SystemState) (ShadowConfig × SystemState) :=
  match s.worktree p with
  | none => Except.error (ShadowErr.Io, s)
  | some current =>
    match s.baselines (encode_path p) with
    | none => Except.error (ShadowErr.Io, s)
    | some oldBaseline =>
      match menv.showFile p with
      | none => Except.error (ShadowErr.FileMissing p, s)
      | some newBaseline =>
        if oldBaseline = newBaseline then Except.ok (cfg, s)
        else
          let mr := menv.mergeFn oldBaseline current newBaseline
          match wtWrite s p mr.1 with
          | none => Except.error (ShadowErr.Io, s)
          | some s1 =>
            let s2 : SystemState :=
              { s1 with baselines := fun k =>
                  if k = encode_path p then some newBaseline else s1.baselines k }
            let cfg2 : ShadowConfig :=
              { cfg with files := cfg.files.map (fun kv =>
                  if kv.1 = p then
                    (kv.1, { kv.2 with baseline_commit := some menv.headCommit })
                  else kv) }
            Except.ok (cfg2, s2)

/-- The invariant a `PreCommitTransaction` journal maintains relative to
the state: the stashed paths are distinct, disjoint from the not yet
processed paths (`avoid`), each has a stash entry and a worktree file,
and every stash entry either belongs to a stashed path or was already
present at the start (`stash0`). -/
def TxnInv (stash0 : List (Str × Str)) (s : SystemState) (tx : Txn)
    (avoid : List Str) : Prop :=
  (tx.stashedOverlays ++ tx.stashedPhantoms).Nodup ∧
  (∀ p ∈ tx.stashedOverlays ++ tx.stashedPhantoms, p ∉ avoid) ∧
  (∀ p ∈ tx.stashedOverlays ++ tx.stashedPhantoms,
      (findVal (encode_path p) s.stash).isSome = true) ∧
  (∀ p ∈ tx.stashedOverlays ++ tx.stashedPhantoms, (s.worktree p).isSome = true) ∧
  (∀ kv ∈ s.stash,
      (∃ p ∈ tx.stashedOverlays ++ tx.stashedPhantoms, kv.1 = encode_path p) ∨ kv ∈ stash0)

/-- Frame conditions of a single Phase-5 step on the entry `p`: the stash
either is untouched or gains exactly the stash entry of `p` (recorded in
exactly one journal list), no other worktree path changes, an existing
worktree file at `p` keeps existing, and lock, stash directory and
directory set are untouched. -/
def StepFrame (p : Str) (s : SystemState) (tx : Txn) (s' : SystemState)
    (tx' : Txn) : Prop :=
  ((tx'.stashedOverlays = tx.stashedOverlays ∧
      tx'.stashedPhantoms = tx.stashedPhantoms ∧ s'.stash = s.stash) ∨
    (∃ c, s.worktree p = some c ∧ s'.stash = setKey (encode_path p) c s.stash ∧
      ((tx'.stashedOverlays = tx.stashedOverlays ++ [p] ∧
          tx'.stashedPhantoms = tx.stashedPhantoms) ∨
       (tx'.stashedOverlays = tx.stashedOverlays ∧
          tx'.stashedPhantoms = tx.stashedPhantoms ++ [p])))) ∧
  (∀ q, q ≠ p → s'.worktree q = s.worktree q) ∧
  ((s.worktree p).isSome = true → (s'.worktree p).isSome = true) ∧
  s'.lock = s.lock ∧ s'.stashDirExists = s.stashDirExists ∧ s'.dirs = s.dirs

/-! Concrete instances used by witnesses and counterexamples. -/

/-- A registry document carrying an unknown additive field `future`. -/
def futDoc : Json :=
  Json.obj [(("version".toList), Json.num 1),
            (("files".toList), Json.obj []),
            (("future".toList), Json.str ("x".toList))]

/-- An overlay registry entry for the sample states. -/
def sampleEntry : FileEntry :=
  ⟨FileType.Overlay, some ("c0".toList), ExcludeMode.None, false, ("t".toList)⟩

/-- A one-overlay registry over the path `f`. -/
def sampleCfg : ShadowConfig := ⟨1, [(("f".toList), sampleEntry)]⟩

/-- A state with worktree content `WT` and baseline `OLD` for `f`. -/
def sampleStateR : SystemState where
  worktree := fun q => if q = ("f".toList) then some ("WT".toList) else none
  dirs := []
  stashDirExists := true
  stash := []
  baselines := fun k => if k = encode_path ("f".toList) then some ("OLD".toList) else none
  index := fun _ => none
  lock := none
  trace := []

/-- A merge environment whose merge reports conflicts and whose HEAD
content for `f` is `NEW`. -/
def sampleMergeEnv : MergeEnv where
  mergeFn := fun _ _ _ => (("MERGED".toList), true)
  showFile := fun q => if q = ("f".toList) then some ("NEW".toList) else none
  headCommit := ("H".toList)

/-- An environment in which every overlay reports partial staging. -/
def envPartial : Env where
  lockEnv := ⟨1, fun _ => false, fun _ => none, ("T".toList)⟩
  stagingStatus := fun _ => (true, true)
  stageOk := fun _ => true
  unstageOk := fun _ => true

/-- An environment whose `git add` always fails (clean staging status). -/
def envC2 : Env where
  lockEnv := ⟨1, fun _ => false, fun _ => none, ("T".toList)⟩
  stagingStatus := fun _ => (false, false)
  stageOk := fun _ => false
  unstageOk := fun _ => true

/-- The state at which Phase 5 fails under `envC2` on `sampleStateR`:
the shadow content is stashed, the baseline overwrote the worktree, and
the failing `git add` has been recorded. -/
def c2FailState : SystemState where
  worktree := fun q => if q = ("f".toList) then some ("OLD".toList) else sampleStateR.worktree q
  dirs := []
  stashDirExists := true
  stash := setKey (encode_path ("f".toList)) ("WT".toList) []
  baselines := sampleStateR.baselines
  index := sampleStateR.index
  lock := some (lockContent 1 ("T".toList))
  trace := [GitOp.stage ("f".toList)]

/-- The journal at that failure point. -/
def c2Txn : Txn := ⟨[("f".toList)], [], [("f".toList)]⟩

/-- An environment in which every git operation succeeds and nothing is
partially staged. -/
def envOk : Env where
  lockEnv := ⟨1, fun _ => false, fun _ => none, ("T".toList)⟩
  stagingStatus := fun _ => (false, false)
  stageOk := fun _ => true
  unstageOk := fun _ => true

/-- A crash state: two stash entries and a held lock. -/
def sRestoreCex : SystemState where
  worktree := fun _ => none
  dirs := []
  stashDirExists := true
  stash := [(("a".toList), ("ca".toList)), (("b".toList), ("cb".toList))]
  baselines := fun _ => none
  index := fun _ => none
  lock := some ("L".toList)
  trace := []

/-- A crash state with a stash remnant and a malformed lockfile. -/
def sPreCex : SystemState where
  worktree := sampleStateR.worktree
  dirs := []
  stashDirExists := true
  stash := [(("x".toList), ("c".toList))]
  baselines := sampleStateR.baselines
  index := fun _ => none
  lock := some ("x".toList)
  trace := []

/-- A held lock with no stash directory at all. -/
def sPostCex1 : SystemState where
  worktree := fun _ => none
  dirs := []
  stashDirExists := false
  stash := []
  baselines := fun _ => none
  index := fun _ => none
  lock := some ("L".toList)
  trace := []

/-- A held lock and a stash entry for `a/b` whose parent directory does
not exist in the worktree. -/
def sPostCex2 : SystemState where
  worktree := fun _ => none
  dirs := []
  stashDirExists := true
  stash := [((encode_path ("a/b".toList)), ("c".toList))]
  baselines := fun _ => none
  index := fun _ => none
  lock := some ("L".toList)
  trace := []

/-! Theorems. -/

lemma slashDecode_cons_ne (c : Char) (t : Str) (h : c ≠ '%') :
    slashDecode (c :: t) = c :: slashDecode t := by
  match t with
  | [] => rfl
  | [d] => rfl
  | d :: e :: t' =>
    rw [slashDecode]
    rw [if_neg]
    rintro ⟨h1, -⟩
    exact h h1

lemma pctDecode_cons_ne (c : Char) (t : Str) (h : c ≠ '%') :
    pctDecode (c :: t) = c :: pctDecode t := by
  match t with
  | [] => rfl
  | [d] => rfl
  | d :: e :: t' =>
    rw [pctDecode]
    rw [if_neg]
    rintro ⟨h1, -⟩
    exact h h1

lemma slashDecode_pct25 (t : Str) :
    slashDecode ('%' :: '2' :: '5' :: t) = '%' :: '2' :: '5' :: slashDecode t := by
  rw [slashDecode, if_neg (by rintro ⟨-, -, h⟩; exact absurd h (by decide))]
  rw [slashDecode_cons_ne '2' _ (by decide), slashDecode_cons_ne '5' _ (by decide)]

lemma slashDecode_pct2F (t : Str) :
    slashDecode ('%' :: '2' :: 'F' :: t) = '/' :: slashDecode t := by
  rw [slashDecode, if_pos ⟨rfl, rfl, rfl⟩]

lemma pctDecode_pct25 (t : Str) :
    pctDecode ('%' :: '2' :: '5' :: t) = '%' :: pctDecode t := by
  rw [pctDecode, if_pos ⟨rfl, rfl, rfl⟩]

lemma slashEncode_cons_ne (c : Char) (t : Str) (h : c ≠ '/') :
    slashEncode (c :: t) = c :: slashEncode t := by
  rw [slashEncode, if_neg h, List.singleton_append]

/-- After the `%`-encoding pass, the slash-encoding pass distributes over
the block structure, so the slash-decoding pass undoes it exactly. -/
lemma slashDecode_encode (s : Str) :
    slashDecode (slashEncode (pctEncode s)) = s.flatMap pctBlock := by
  induction s with
  | nil => rfl
  | cons c rest ih =>
    rw [pctEncode, List.flatMap_cons]
    by_cases hc : c = '%'
    · subst hc
      have hb : pctBlock '%' = ['%', '2', '5'] := rfl
      rw [hb, if_pos rfl]
      show slashDecode (slashEncode ('%' :: '2' :: '5' :: pctEncode rest)) = _
      rw [slashEncode_cons_ne _ _ (by decide), slashEncode_cons_ne _ _ (by decide),
          slashEncode_cons_ne _ _ (by decide), slashDecode_pct25, ih]
      rfl
    · have hb : pctBlock c = [c] := by rw [pctBlock, if_neg hc]
      rw [hb, if_neg hc, List.singleton_append, List.singleton_append]
      by_cases hs : c = '/'
      · subst hs
        rw [slashEncode, if_pos rfl]
        show slashDecode ('%' :: '2' :: 'F' :: slashEncode (pctEncode rest)) = _
        rw [slashDecode_pct2F, ih]
      · rw [slashEncode_cons_ne _ _ hs, slashDecode_cons_ne c _ hc, ih]

/-- The `%`-decoding pass undoes the `%`-encoding pass. -/
lemma pctDecode_blocks (s : Str) :
    pctDecode (s.flatMap pctBlock) = s := by
  induction s with
  | nil => rfl
  | cons c rest ih =>
    rw [List.flatMap_cons]
    by_cases hc : c = '%'
    · subst hc
      have hb : pctBlock '%' = ['%', '2', '5'] := rfl
      rw [hb]
      show pctDecode ('%' :: '2' :: '5' :: rest.flatMap pctBlock) = _
      rw [pctDecode_pct25, ih]
    · have hb : pctBlock c = [c] := by rw [pctBlock, if_neg hc]
      rw [hb, List.singleton_append, pctDecode_cons_ne c _ hc, ih]

/-- Round-trip law of the path codec: decoding inverts encoding. -/
theorem decode_encode_path (s : Str) : decode_path (encode_path s) = s := by
  rw [decode_path, encode_path, slashDecode_encode, pctDecode_blocks]

/-- The encoding is injective (stash filenames determine their managed
paths). -/
theorem encode_path_injective : Function.Injective encode_path := by
  intro a b h
  have := congrArg decode_path h
  rwa [decode_encode_path, decode_encode_path] at this

/-! Lock claims. -/

/-- C10: a lockfile whose content does not parse as a pid and timestamp
record never produces `LockHeld` or `StaleLock`; `acquire_lock` silently
replaces it with a fresh record for the current process and succeeds,
for every such malformed content. -/
theorem acquire_lock_malformed (env : LockEnv) (c : Str)
    (h : parse_lock env.parseTs c = none) :
    acquire_lock env (some c) = Except.ok (some (lockContent env.myPid env.now)) := by
  simp only [acquire_lock]
  rw [h]

/-- Witness for C10 at the content `"garbage"` (no `pid=` line), with an
always-failing timestamp parser and pid 1. -/
theorem acquire_lock_malformed_witness :
    parse_lock (fun _ => none) ("garbage".toList) = none ∧
    acquire_lock ⟨1, fun _ => false, fun _ => none, ("T".toList)⟩ (some ("garbage".toList)) =
      Except.ok (some (lockContent 1 ("T".toList))) :=
  ⟨rfl, acquire_lock_malformed ⟨1, fun _ => false, fun _ => none, ("T".toList)⟩ ("garbage".toList) rfl⟩

/-- C6, counterexample: the existing lockfile content `"x"` cannot be
parsed, yet `acquire_lock` succeeds and writes a brand-new pid and
timestamp record over it — refuting "only when no lockfile exists does
acquire write a new pid and timestamp record" (and, read per-case, the
claim that a present lockfile always yields reentrancy, `LockHeld` or
`StaleLock`). -/
theorem acquire_lock_c6_cex :
    acquire_lock ⟨7, fun _ => true, fun _ => none, ("TS".toList)⟩ (some ("x".toList)) =
      Except.ok (some (lockContent 7 ("TS".toList))) ∧
    lockContent 7 ("TS".toList) ≠ ("x".toList) :=
  ⟨rfl, by decide⟩

/-- C6, amended: for a lockfile that parses, acquisition is reentrant on
our own pid, fails `LockHeld{pid, timestamp}` on a live other pid, and
fails `StaleLock{pid}` on a dead pid without writing anything (the
function only returns an error, leaving the file in place); a fresh
`pid`/`timestamp` record is written exactly when no lockfile exists or
the existing content cannot be parsed. -/
theorem acquire_lock_cases (env : LockEnv) (c : Str) (info : LockInfo) :
    (parse_lock env.parseTs c = some info →
      ((info.pid = env.myPid → acquire_lock env (some c) = Except.ok (some c)) ∧
       (info.pid ≠ env.myPid → env.alive info.pid = true →
          acquire_lock env (some c) =
            Except.error (ShadowErr.LockHeld info.pid info.timestamp)) ∧
       (info.pid ≠ env.myPid → env.alive info.pid = false →
          acquire_lock env (some c) = Except.error (ShadowErr.StaleLock info.pid)))) ∧
    (acquire_lock env none = Except.ok (some (lockContent env.myPid env.now))) ∧
    (parse_lock env.parseTs c = none →
      acquire_lock env (some c) = Except.ok (some (lockContent env.myPid env.now))) := by
  refine ⟨fun hp => ⟨fun he => ?_, fun hne ha => ?_, fun hne ha => ?_⟩, rfl, fun hp => ?_⟩
  · simp only [acquire_lock, hp]
    rw [if_pos he]
  · simp only [acquire_lock, hp]
    rw [if_neg hne, if_pos ha]
  · simp only [acquire_lock, hp]
    rw [if_neg hne, if_neg (by rw [ha]; exact Bool.false_ne_true)]
  · simp only [acquire_lock, hp]

/-- Witness for the amended C6: with an identity timestamp parser, a
well-formed lockfile `pid=42`/`timestamp=T` is reentrant for pid 42,
yields `LockHeld` for pid 7 when 42 is alive, and `StaleLock` for pid 7
when 42 is dead. -/
theorem acquire_lock_cases_witness :
    acquire_lock ⟨42, fun _ => true, fun s => some s, ("N".toList)⟩
        (some (lockContent 42 ("T".toList))) =
      Except.ok (some (lockContent 42 ("T".toList))) ∧
    acquire_lock ⟨7, fun _ => true, fun s => some s, ("N".toList)⟩
        (some (lockContent 42 ("T".toList))) =
      Except.error (ShadowErr.LockHeld 42 ("T".toList)) ∧
    acquire_lock ⟨7, fun _ => false, fun s => some s, ("N".toList)⟩
        (some (lockContent 42 ("T".toList))) =
      Except.error (ShadowErr.StaleLock 42) := by
  refine ⟨?_, ?_, ?_⟩
  · exact ((acquire_lock_cases ⟨42, fun _ => true, fun s => some s, ("N".toList)⟩
      (lockContent 42 ("T".toList)) ⟨42, ("T".toList)⟩).1 rfl).1 rfl
  · exact (((acquire_lock_cases ⟨7, fun _ => true, fun s => some s, ("N".toList)⟩
      (lockContent 42 ("T".toList)) ⟨42, ("T".toList)⟩).1 rfl).2.1 (by decide) rfl)
  · exact (((acquire_lock_cases ⟨7, fun _ => false, fun s => some s, ("N".toList)⟩
      (lockContent 42 ("T".toList)) ⟨42, ("T".toList)⟩).1 rfl).2.2 (by decide) rfl)

/-! Path normalization claims. -/

lemma replaceBackslash_no_bs (s : Str) : '\\' ∉ replaceBackslash s := by
  induction s with
  | nil => intro h; exact absurd h (List.not_mem_nil _)
  | cons c rest ih =>
    intro h
    rw [replaceBackslash] at h
    rcases List.mem_cons.mp h with h1 | h1
    · by_cases hc : c = '\\'
      · rw [if_pos hc] at h1
        exact absurd h1 (by decide)
      · rw [if_neg hc] at h1
        exact hc h1.symm
    · exact ih h1

lemma stripDotSlash_eq_self (s : Str) (hs : ∀ rest, s ≠ '.' :: '/' :: rest) :
    stripDotSlash s = s := by
  rw [stripDotSlash.eq_def]
  split
  · exact absurd rfl (hs _)
  · rfl

lemma stripDotSlash_mem {c : Char} (s : Str) (h : c ∈ stripDotSlash s) : c ∈ s := by
  induction s using stripDotSlash.induct with
  | case1 rest ih =>
    rw [stripDotSlash] at h
    exact List.mem_cons_of_mem _ (List.mem_cons_of_mem _ (ih h))
  | case2 s hs =>
    rwa [stripDotSlash_eq_self s (fun rest he => hs rest he)] at h

lemma stripDotSlash_no_dot_slash (s : Str) : ∀ t, stripDotSlash s ≠ '.' :: '/' :: t := by
  induction s using stripDotSlash.induct with
  | case1 rest ih =>
    intro t
    rw [stripDotSlash]
    exact ih t
  | case2 s hs =>
    intro t
    rw [stripDotSlash_eq_self s (fun rest he => hs rest he)]
    exact hs t

/-- C9, counterexample: `normalize_path` accepts a relative path that
traverses `..`; a repeated `./` prefix can leave a leading `/`; and an
absolute path that is not inside the repository root (`/repoX/f` under
root `/repo`) is accepted because only a string prefix is tested. -/
theorem normalize_path_cex :
    normalize_path ("../x".toList) ("/r".toList) = Except.ok ("../x".toList) ∧
    normalize_path (".//x".toList) ("/r".toList) = Except.ok ("/x".toList) ∧
    normalize_path ("/repoX/f".toList) ("/repo".toList) = Except.ok ("X/f".toList) :=
  ⟨rfl, rfl, rfl⟩

/-- C9, amended: a successful normalization yields a string with no
backslash and no leading `./`; the normalization fails (necessarily with
`OutsideRepo`) exactly when the separator-converted input starts with
`/` and the repository root string (trailing slashes trimmed) is not a
string prefix of it — in particular an input that does not start with
`/` or a backslash never fails.  The result may still traverse `..` or
retain a leading `/`. -/
theorem normalize_path_props (input repoRoot : Str) :
    (∀ out, normalize_path input repoRoot = Except.ok out →
        '\\' ∉ out ∧ ∀ t, out ≠ '.' :: '/' :: t) ∧
    (normalize_path input repoRoot = Except.error PathErr.OutsideRepo ↔
      ((replaceBackslash input).head? = some '/' ∧
        (trimEndSlashes (replaceBackslash repoRoot)).isPrefixOf
            (replaceBackslash input) = false)) := by
  constructor
  · intro out hout
    rw [normalize_path] at hout
    by_cases hhead : (replaceBackslash input).head? = some '/'
    · rw [if_pos hhead] at hout
      by_cases hpre : (trimEndSlashes (replaceBackslash repoRoot)).isPrefixOf
          (replaceBackslash input) = true
      · rw [if_pos hpre] at hout
        have hout' : stripDotSlash (((replaceBackslash input).drop
            (trimEndSlashes (replaceBackslash repoRoot)).length).dropWhile
              (fun c => c = '/')) = out := by
          exact Except.ok.inj hout
        constructor
        · intro hmem
          rw [← hout'] at hmem
          have h1 := stripDotSlash_mem _ hmem
          have h2 := (List.dropWhile_sublist (fun c : Char => c = '/')).subset h1
          have h3 := (List.drop_sublist _ _).subset h2
          exact replaceBackslash_no_bs input h3
        · intro t
          rw [← hout']
          exact stripDotSlash_no_dot_slash _ t
      · rw [if_neg hpre] at hout
        exact absurd hout (by simp)
    · rw [if_neg hhead] at hout
      have hout' : stripDotSlash (replaceBackslash input) = out := Except.ok.inj hout
      constructor
      · intro hmem
        rw [← hout'] at hmem
        exact replaceBackslash_no_bs input (stripDotSlash_mem _ hmem)
      · intro t
        rw [← hout']
        exact stripDotSlash_no_dot_slash _ t
  · by_cases hhead : (replaceBackslash input).head? = some '/'
    · rw [normalize_path, if_pos hhead]
      by_cases hpre : (trimEndSlashes (replaceBackslash repoRoot)).isPrefixOf
          (replaceBackslash input) = true
      · rw [if_pos hpre]
        constructor
        · intro h
          exact absurd h (by simp)
        · intro h
          rw [hpre] at h
          exact absurd h.2 (by simp)
      · rw [if_neg hpre]
        simp only [Bool.not_eq_true] at hpre
        constructor
        · intro _
          exact ⟨hhead, hpre⟩
        · intro _
          rfl
    · rw [normalize_path, if_neg hhead]
      constructor
      · intro h
        exact absurd h (by simp)
      · intro h
        exact absurd h.1 hhead

/-- Witness for the amended C9 on a relative input with separators and a
leading `./`, and on an absolute input outside the root string. -/
theorem normalize_path_props_witness :
    ('\\' ∉ ("src/a".toList) ∧ ∀ t, ("src/a".toList) ≠ '.' :: '/' :: t) ∧
    (normalize_path ("/other/f".toList) ("/repo".toList) =
        Except.error PathErr.OutsideRepo ↔
      ((replaceBackslash ("/other/f".toList)).head? = some '/' ∧
        (trimEndSlashes (replaceBackslash ("/repo".toList))).isPrefixOf
            (replaceBackslash ("/other/f".toList)) = false)) := by
  constructor
  · exact (normalize_path_props (".\\src\\a".toList) ("/r".toList)).1 ("src/a".toList) rfl
  · exact (normalize_path_props ("/other/f".toList) ("/repo".toList)).2

/-! Rebase claim (C8). -/

lemma findVal_map_update {α : Type} (p : Str) (f : α → α) (l : List (Str × α)) :
    findVal p (l.map (fun kv => if kv.1 = p then (kv.1, f kv.2) else kv)) =
      (findVal p l).map f := by
  induction l with
  | nil => rfl
  | cons kv rest ih =>
    by_cases h : kv.1 = p
    · simp [findVal, h, ih]
    · simp [findVal, h, ih]

/-- C8: rebasing a single overlay is a no-op when the stored baseline
equals the HEAD content; otherwise it writes the 3-way merge of
(base = old baseline, ours = worktree, theirs = HEAD) to the worktree,
replaces the baseline with the HEAD content and updates
`baseline_commit` to the current HEAD — irrespective of the conflict
flag, so the baseline advances even on a conflicting merge. -/
theorem rebase_file_spec (menv : MergeEnv) (cfg : ShadowConfig) (s : SystemState)
    (p cur old newB : Str)
    (hwt : s.worktree p = some cur)
    (hbl : s.baselines (encode_path p) = some old)
    (hshow : menv.showFile p = some newB) :
    (old = newB → rebase_file menv cfg s p = Except.ok (cfg, s)) ∧
    (old ≠ newB →
      ∃ cfg2 s2, rebase_file menv cfg s p = Except.ok (cfg2, s2) ∧
        s2.worktree p = some (menv.mergeFn old cur newB).1 ∧
        s2.baselines (encode_path p) = some newB ∧
        findVal p cfg2.files =
          (findVal p cfg.files).map
            (fun e => { e with baseline_commit := some menv.headCommit }) ∧
        s2.index = s.index ∧ s2.stash = s.stash ∧ s2.lock = s.lock) := by
  constructor
  · intro he
    simp only [rebase_file, hwt, hbl, hshow]
    rw [if_pos he]
  · intro hne
    simp only [rebase_file, hwt, hbl, hshow]
    rw [if_neg hne]
    have hcw : wtWrite s p (menv.mergeFn old cur newB).1 =
        some (wtSet s p (menv.mergeFn old cur newB).1) := by
      rw [wtWrite, if_pos]
      right; right
      rw [hwt]
      rfl
    rw [hcw]
    refine ⟨_, _, rfl, ?_, ?_, ?_, rfl, rfl, rfl⟩
    · show (wtSet s p (menv.mergeFn old cur newB).1).worktree p = _
      rw [wtSet]
      simp
    · simp
    · exact findVal_map_update p
        (fun e => { e with baseline_commit := some menv.headCommit }) cfg.files

/-- Witness for C8 with a conflicting merge: the worktree receives the
merged (conflict-marked) content and the baseline still advances. -/
theorem rebase_file_spec_witness :
    ("OLD".toList) ≠ ("NEW".toList) ∧
    (∃ cfg2 s2, rebase_file sampleMergeEnv sampleCfg sampleStateR ("f".toList) =
        Except.ok (cfg2, s2) ∧
      s2.worktree ("f".toList) =
        some (sampleMergeEnv.mergeFn ("OLD".toList) ("WT".toList) ("NEW".toList)).1 ∧
      s2.baselines (encode_path ("f".toList)) = some ("NEW".toList) ∧
      findVal ("f".toList) cfg2.files =
        (findVal ("f".toList) sampleCfg.files).map
          (fun e => { e with baseline_commit := some sampleMergeEnv.headCommit }) ∧
      s2.index = sampleStateR.index ∧ s2.stash = sampleStateR.stash ∧
      s2.lock = sampleStateR.lock) :=
  ⟨by decide,
   (rebase_file_spec sampleMergeEnv sampleCfg sampleStateR
      ("f".toList) ("WT".toList) ("OLD".toList) ("NEW".toList) rfl rfl rfl).2 (by decide)⟩

/-! Registry round-trip claim (C7). -/

lemma jLookup_append_left (k : Str) (fs l : List (Str × Json)) (j : Json)
    (h : jLookup k fs = some j) : jLookup k (fs ++ l) = some j := by
  induction fs with
  | nil => exact absurd h (by simp [jLookup])
  | cons kv rest ih =>
    simp only [List.cons_append, jLookup] at h ⊢
    by_cases hk : kv.1 = k
    · rwa [if_pos hk] at h ⊢
    · rw [if_neg hk] at h ⊢
      exact ih h

/-- C7, counterexample: the document `futDoc` carries the unknown field
`future`; loading succeeds, but serializing the loaded registry drops
the field, so load-then-save does not leave it present. -/
theorem config_roundtrip_cex :
    ShadowConfig.fromJson futDoc = some ⟨1, []⟩ ∧
    jTop ("future".toList) futDoc = some (Json.str ("x".toList)) ∧
    jTop ("future".toList) (ShadowConfig.toJson ⟨1, []⟩) = none :=
  ⟨rfl, rfl, rfl⟩

/-- C7, amended: loading a registry document with an unknown additive
top-level field succeeds with the same registry (the field is ignored),
but the document written by save never contains that field — load
followed by save drops unknown fields instead of round-tripping them. -/
theorem config_unknown_field (fs : List (Str × Json)) (k : Str) (v : Json)
    (c : ShadowConfig)
    (hk1 : k ≠ ("version".toList)) (hk2 : k ≠ ("files".toList))
    (hload : ShadowConfig.fromJson (Json.obj fs) = some c) :
    ShadowConfig.fromJson (Json.obj (fs ++ [(k, v)])) = some c ∧
    jTop k (ShadowConfig.toJson c) = none := by
  constructor
  · simp only [ShadowConfig.fromJson] at hload ⊢
    split at hload
    next ver heqv =>
      rw [jLookup_append_left _ _ _ _ heqv]
      split at hload
      next fj heqf =>
        rw [jLookup_append_left _ _ _ _ heqf]
        exact hload
      next hne =>
        exact absurd hload (by simp)
    next hne =>
      exact absurd hload (by simp)
  · simp only [ShadowConfig.toJson, jTop, jLookup]
    rw [if_neg (fun h => hk1 h.symm), if_neg (fun h => hk2 h.symm)]

/-- Witness for the amended C7 at a concrete document with the unknown
field `future`. -/
theorem config_unknown_field_witness :
    ShadowConfig.fromJson
        (Json.obj ([(("version".toList), Json.num 1), (("files".toList), Json.obj [])]
          ++ [(("future".toList), Json.str ("x".toList))])) = some ⟨1, []⟩ ∧
    jTop ("future".toList) (ShadowConfig.toJson ⟨1, []⟩) = none :=
  config_unknown_field _ _ _ _ (by decide) (by decide) rfl

/-! Association-list and state lemmas. -/

lemma findVal_setKey_self {α : Type} (k : Str) (v : α) (l : List (Str × α)) :
    findVal k (setKey k v l) = some v := by
  rw [setKey]
  induction l with
  | nil => simp [eraseKey, findVal]
  | cons kv rest ih =>
    rw [eraseKey]
    by_cases h : kv.1 = k
    · rwa [if_pos h]
    · rw [if_neg h, List.cons_append, findVal, if_neg h]
      exact ih

lemma findVal_eraseKey_ne {α : Type} (k k' : Str) (l : List (Str × α)) (h : k' ≠ k) :
    findVal k' (eraseKey k l) = findVal k' l := by
  induction l with
  | nil => rfl
  | cons kv rest ih =>
    rw [eraseKey, findVal]
    by_cases hk : kv.1 = k
    · rw [if_pos hk, if_neg (by rw [hk]; exact fun he => h he.symm), ih]
    · rw [if_neg hk, findVal]
      by_cases hk' : kv.1 = k'
      · rw [if_pos hk', if_pos hk']
      · rw [if_neg hk', if_neg hk', ih]

lemma findVal_setKey_ne {α : Type} (k k' : Str) (v : α) (l : List (Str × α)) (h : k' ≠ k) :
    findVal k' (setKey k v l) = findVal k' l := by
  rw [setKey]
  induction l with
  | nil =>
    simp only [eraseKey, List.nil_append, findVal]
    rw [if_neg (fun he => h he.symm)]
  | cons kv rest ih =>
    rw [eraseKey]
    by_cases hk : kv.1 = k
    · rw [if_pos hk]
      rw [ih]
      rw [findVal, if_neg (by rw [hk]; exact fun he => h he.symm)]
    · rw [if_neg hk, List.cons_append, findVal, findVal]
      by_cases hk' : kv.1 = k'
      · rw [if_pos hk', if_pos hk']
      · rw [if_neg hk', if_neg hk', ih]

lemma mem_eraseKey {α : Type} (k : Str) (kv : Str × α) (l : List (Str × α)) :
    kv ∈ eraseKey k l ↔ kv ∈ l ∧ kv.1 ≠ k := by
  induction l with
  | nil => simp [eraseKey]
  | cons kv' rest ih =>
    rw [eraseKey]
    by_cases h : kv'.1 = k
    · rw [if_pos h, ih]
      constructor
      · rintro ⟨h1, h2⟩
        exact ⟨List.mem_cons_of_mem _ h1, h2⟩
      · rintro ⟨h1, h2⟩
        rcases List.mem_cons.mp h1 with h3 | h3
        · exact absurd (h3 ▸ h) h2
        · exact ⟨h3, h2⟩
    · rw [if_neg h]
      constructor
      · intro hm
        rcases List.mem_cons.mp hm with h3 | h3
        · exact ⟨h3 ▸ List.mem_cons_self _ _, h3 ▸ h⟩
        · rcases ih.mp h3 with ⟨h4, h5⟩
          exact ⟨List.mem_cons_of_mem _ h4, h5⟩
      · rintro ⟨h1, h2⟩
        rcases List.mem_cons.mp h1 with h3 | h3
        · exact h3 ▸ List.mem_cons_self _ _
        · exact List.mem_cons_of_mem _ (ih.mpr ⟨h3, h2⟩)

lemma eraseKey_sublist {α : Type} (k : Str) (l : List (Str × α)) :
    List.Sublist (eraseKey k l) l := by
  induction l with
  | nil => exact List.Sublist.refl _
  | cons kv rest ih =>
    rw [eraseKey]
    by_cases h : kv.1 = k
    · rw [if_pos h]
      exact ih.cons _
    · rw [if_neg h]
      exact ih.cons₂ _

lemma eraseKey_of_not_mem_keys {α : Type} (k : Str) (l : List (Str × α))
    (h : k ∉ l.map Prod.fst) : eraseKey k l = l := by
  induction l with
  | nil => rfl
  | cons kv rest ih =>
    rw [List.map_cons, List.mem_cons] at h
    push_neg at h
    rw [eraseKey, if_neg (fun he => h.1 he.symm), ih h.2]

lemma findVal_eq_none_iff {α : Type} (k : Str) (l : List (Str × α)) :
    findVal k l = none ↔ ∀ kv ∈ l, kv.1 ≠ k := by
  induction l with
  | nil => simp [findVal]
  | cons kv rest ih =>
    rw [findVal]
    by_cases h : kv.1 = k
    · simp only [if_pos h]
      constructor
      · intro he
        exact absurd he (by simp)
      · intro hall
        exact absurd h (hall kv (List.mem_cons_self _ _))
    · simp only [if_neg h, ih]
      constructor
      · intro hall kv' hm
        rcases List.mem_cons.mp hm with h3 | h3
        · exact h3 ▸ h
        · exact hall kv' h3
      · intro hall kv' hm
        exact hall kv' (List.mem_cons_of_mem _ hm)

lemma findVal_isSome_of_mem_keys {α : Type} (k : Str) (l : List (Str × α))
    (h : k ∈ l.map Prod.fst) : (findVal k l).isSome = true := by
  induction l with
  | nil => simp at h
  | cons kv rest ih =>
    rw [List.map_cons, List.mem_cons] at h
    rw [findVal]
    by_cases hk : kv.1 = k
    · rw [if_pos hk]; rfl
    · rw [if_neg hk]
      rcases h with h1 | h1
      · exact absurd h1.symm hk
      · exact ih h1

lemma wtSet_at (s : SystemState) (p c : Str) : (wtSet s p c).worktree p = some c := by
  rw [wtSet]
  simp

lemma wtSet_ne (s : SystemState) (p c q : Str) (h : q ≠ p) :
    (wtSet s p c).worktree q = s.worktree q := by
  rw [wtSet]
  simp [h]

lemma canWrite_congr (s s' : SystemState) (p : Str) (hd : s'.dirs = s.dirs)
    (hw : s'.worktree p = s.worktree p) : canWrite s' p ↔ canWrite s p := by
  rw [canWrite, canWrite, hd, hw]

lemma wtWrite_of_isSome (s : SystemState) (p c : Str) (h : (s.worktree p).isSome = true) :
    wtWrite s p c = some (wtSet s p c) := by
  rw [wtWrite, if_pos (show canWrite s p from Or.inr (Or.inr h))]

lemma wtWrite_eq_some {s s' : SystemState} {p c : Str} (h : wtWrite s p c = some s') :
    s' = wtSet s p c := by
  rw [wtWrite] at h
  by_cases hc : canWrite s p
  · rw [if_pos hc] at h
    exact (Option.some.inj h).symm
  · rw [if_neg hc] at h
    exact absurd h (by simp)

lemma restoreStashed_absent (s : SystemState) (p : Str)
    (h : findVal (encode_path p) s.stash = none) : restoreStashed s p = s := by
  rw [restoreStashed, h]

lemma restoreStashed_present (s : SystemState) (p c : Str)
    (hfind : findVal (encode_path p) s.stash = some c)
    (hwt : (s.worktree p).isSome = true) :
    restoreStashed s p = stashRemove (wtSet s p c) (encode_path p) := by
  rw [restoreStashed, hfind]
  simp only
  rw [wtWrite_of_isSome s p c hwt]

lemma gitAdd_fields (env : Env) (s : SystemState) (p : Str) :
    (gitAdd env s p).2.worktree = s.worktree ∧ (gitAdd env s p).2.stash = s.stash ∧
    (gitAdd env s p).2.lock = s.lock ∧
    (gitAdd env s p).2.stashDirExists = s.stashDirExists ∧
    (gitAdd env s p).2.dirs = s.dirs ∧ (gitAdd env s p).2.baselines = s.baselines ∧
    (gitAdd env s p).2.trace = s.trace ++ [GitOp.stage p] ∧
    (∀ q, q ≠ p → (gitAdd env s p).2.index q = s.index q) := by
  rw [gitAdd]
  by_cases hok : env.stageOk p = true
  · rw [if_pos hok]
    cases hw : s.worktree p with
    | none =>
      exact ⟨rfl, rfl, rfl, rfl, rfl, rfl, rfl, fun q _ => rfl⟩
    | some c =>
      refine ⟨rfl, rfl, rfl, rfl, rfl, rfl, rfl, fun q hq => ?_⟩
      simp only
      rw [if_neg hq]
  · rw [if_neg hok]
    exact ⟨rfl, rfl, rfl, rfl, rfl, rfl, rfl, fun q _ => rfl⟩

lemma gitUnstage_fields (env : Env) (s : SystemState) (p : Str) :
    (gitUnstage env s p).2.worktree = s.worktree ∧ (gitUnstage env s p).2.stash = s.stash ∧
    (gitUnstage env s p).2.lock = s.lock ∧
    (gitUnstage env s p).2.stashDirExists = s.stashDirExists ∧
    (gitUnstage env s p).2.dirs = s.dirs ∧ (gitUnstage env s p).2.baselines = s.baselines ∧
    (gitUnstage env s p).2.trace = s.trace ++ [GitOp.unstage p] ∧
    (∀ q, q ≠ p → (gitUnstage env s p).2.index q = s.index q) := by
  rw [gitUnstage]
  by_cases hok : env.unstageOk p = true
  · rw [if_pos hok]
    refine ⟨rfl, rfl, rfl, rfl, rfl, rfl, rfl, fun q hq => ?_⟩
    simp only
    rw [if_neg hq]
  · rw [if_neg hok]
    exact ⟨rfl, rfl, rfl, rfl, rfl, rfl, rfl, fun q _ => rfl⟩

lemma findVal_eraseKey_none {α : Type} (k k' : Str) (l : List (Str × α))
    (h : findVal k l = none) : findVal k (eraseKey k' l) = none := by
  rw [findVal_eq_none_iff] at h ⊢
  intro kv hm
  exact h kv ((mem_eraseKey k' kv l).mp hm).1

lemma findVal_eraseKey_self_none {α : Type} (k : Str) (l : List (Str × α)) :
    findVal k (eraseKey k l) = none := by
  rw [findVal_eq_none_iff]
  intro kv hm
  exact ((mem_eraseKey k kv l).mp hm).2

/-- Effect of `PreCommitTransaction::rollback`'s restore loop over a
distinct list of stashed paths, each with a stash entry and an existing
worktree file: every stashed path gets its stashed bytes written back
and its stash entry deleted, nothing else changes. -/
lemma rollbackRestore_spec (ps : List Str) :
    ∀ s : SystemState, ps.Nodup →
    (∀ p ∈ ps, (findVal (encode_path p) s.stash).isSome = true) →
    (∀ p ∈ ps, (s.worktree p).isSome = true) →
    (∀ p ∈ ps, ∃ b, findVal (encode_path p) s.stash = some b ∧
        (ps.foldl restoreStashed s).worktree p = some b ∧
        findVal (encode_path p) (ps.foldl restoreStashed s).stash = none) ∧
    (∀ kv ∈ (ps.foldl restoreStashed s).stash, kv ∈ s.stash ∧
        ∀ p ∈ ps, kv.1 ≠ encode_path p) ∧
    (∀ q, q ∉ ps → (ps.foldl restoreStashed s).worktree q = s.worktree q) ∧
    (ps.foldl restoreStashed s).index = s.index ∧
    (ps.foldl restoreStashed s).lock = s.lock ∧
    (ps.foldl restoreStashed s).trace = s.trace ∧
    (ps.foldl restoreStashed s).stashDirExists = s.stashDirExists ∧
    (ps.foldl restoreStashed s).dirs = s.dirs ∧
    (∀ k, findVal k s.stash = none → findVal k (ps.foldl restoreStashed s).stash = none) := by
  induction ps with
  | nil =>
    intro s _ _ _
    exact ⟨fun p hp => absurd hp (List.not_mem_nil _),
           fun kv hm => ⟨hm, fun p hp => absurd hp (List.not_mem_nil _)⟩,
           fun q _ => rfl, rfl, rfl, rfl, rfl, rfl, fun k hk => hk⟩
  | cons p ps' ih =>
    intro s hnd hpres hwt
    obtain ⟨hp_notin, hnd'⟩ := List.nodup_cons.mp hnd
    obtain ⟨b, hb⟩ := Option.isSome_iff_exists.mp (hpres p (List.mem_cons_self _ _))
    have hstep : restoreStashed s p = stashRemove (wtSet s p b) (encode_path p) :=
      restoreStashed_present s p b hb (hwt p (List.mem_cons_self _ _))
    set s' : SystemState := stashRemove (wtSet s p b) (encode_path p) with hs'
    have hfold : (p :: ps').foldl restoreStashed s = ps'.foldl restoreStashed s' := by
      rw [List.foldl_cons, hstep]
    have hs'stash : s'.stash = eraseKey (encode_path p) s.stash := rfl
    have hne_enc : ∀ q ∈ ps', encode_path q ≠ encode_path p := by
      intro q hq he
      exact hp_notin ((encode_path_injective he) ▸ hq)
    have hpres' : ∀ q ∈ ps', (findVal (encode_path q) s'.stash).isSome = true := by
      intro q hq
      rw [hs'stash, findVal_eraseKey_ne _ _ _ (hne_enc q hq)]
      exact hpres q (List.mem_cons_of_mem _ hq)
    have hwt'eq : ∀ q, q ≠ p → s'.worktree q = s.worktree q := by
      intro q hq
      show (wtSet s p b).worktree q = s.worktree q
      exact wtSet_ne s p b q hq
    have hwt' : ∀ q ∈ ps', (s'.worktree q).isSome = true := by
      intro q hq
      rw [hwt'eq q (fun he => hp_notin (he ▸ hq))]
      exact hwt q (List.mem_cons_of_mem _ hq)
    obtain ⟨ih1, ih2, ih3, ih4, ih5, ih6, ih7, ih8, ih9⟩ := ih s' hnd' hpres' hwt'
    rw [hfold]
    refine ⟨?_, ?_, ?_, ?_, ?_, ?_, ?_, ?_, ?_⟩
    · intro q hq
      rcases List.mem_cons.mp hq with hq1 | hq1
      · rw [hq1]
        refine ⟨b, hb, ?_, ?_⟩
        · rw [ih3 p hp_notin]
          exact wtSet_at s p b
        · refine ih9 _ ?_
          rw [hs'stash]
          exact findVal_eraseKey_self_none (encode_path p) s.stash
      · obtain ⟨b', hb1', hb2', hb3'⟩ := ih1 q hq1
        refine ⟨b', ?_, hb2', hb3'⟩
        rw [hs'stash, findVal_eraseKey_ne _ _ _ (hne_enc q hq1)] at hb1'
        exact hb1'
    · intro kv hm
      obtain ⟨hm1, hm2⟩ := ih2 kv hm
      rw [hs'stash] at hm1
      obtain ⟨hm3, hm4⟩ := (mem_eraseKey _ kv _).mp hm1
      refine ⟨hm3, ?_⟩
      intro q hq
      rcases List.mem_cons.mp hq with hq1 | hq1
      · exact hq1 ▸ hm4
      · exact hm2 q hq1
    · intro q hq
      rw [List.mem_cons] at hq
      push_neg at hq
      rw [ih3 q hq.2, hwt'eq q hq.1]
    · exact ih4
    · exact ih5
    · exact ih6
    · exact ih7
    · exact ih8
    · intro k hk
      refine ih9 k ?_
      rw [hs'stash]
      exact findVal_eraseKey_none _ _ _ hk

/-- Effect of the best-effort re-staging loop of the rollback: a
`git add` invocation is recorded for every overwritten path, the trace
only grows, and worktree, stash, lock and directories are untouched. -/
lemma addFold_spec (env : Env) (ps : List Str) :
    ∀ s : SystemState,
    (∀ p ∈ ps, GitOp.stage p ∈ (ps.foldl (fun s' q => (gitAdd env s' q).2) s).trace) ∧
    (∀ op ∈ s.trace, op ∈ (ps.foldl (fun s' q => (gitAdd env s' q).2) s).trace) ∧
    (ps.foldl (fun s' q => (gitAdd env s' q).2) s).worktree = s.worktree ∧
    (ps.foldl (fun s' q => (gitAdd env s' q).2) s).stash = s.stash ∧
    (ps.foldl (fun s' q => (gitAdd env s' q).2) s).lock = s.lock ∧
    (ps.foldl (fun s' q => (gitAdd env s' q).2) s).stashDirExists = s.stashDirExists ∧
    (ps.foldl (fun s' q => (gitAdd env s' q).2) s).dirs = s.dirs := by
  induction ps with
  | nil =>
    intro s
    exact ⟨fun p hp => absurd hp (List.not_mem_nil _), fun op hop => hop,
           rfl, rfl, rfl, rfl, rfl⟩
  | cons p ps' ih =>
    intro s
    obtain ⟨f1, f2, f3, f4, f5, f6, f7, f8⟩ := gitAdd_fields env s p
    obtain ⟨ih1, ih2, ih3, ih4, ih5, ih6, ih7⟩ := ih (gitAdd env s p).2
    rw [List.foldl_cons]
    refine ⟨?_, ?_, ?_, ?_, ?_, ?_, ?_⟩
    · intro q hq
      rcases List.mem_cons.mp hq with hq1 | hq1
      · subst hq1
        refine ih2 _ ?_
        rw [f7]
        exact List.mem_append_right _ (List.mem_singleton.mpr rfl)
      · exact ih1 q hq1
    · intro op hop
      refine ih2 op ?_
      rw [f7]
      exact List.mem_append_left _ hop
    · rw [ih3, f1]
    · rw [ih4, f2]
    · rw [ih5, f3]
    · rw [ih6, f4]
    · rw [ih7, f5]

/-- The re-staging loop of the rollback appends exactly one `git add`
invocation per overwritten path, in order, to the trace. -/
lemma addFold_trace (env : Env) : ∀ (ps : List Str) (s : SystemState),
    (ps.foldl (fun s' q => (gitAdd env s' q).2) s).trace =
      s.trace ++ ps.map GitOp.stage := by
  intro ps
  induction ps with
  | nil =>
    intro s
    rw [List.foldl_nil, List.map_nil, List.append_nil]
  | cons p ps' ih =>
    intro s
    obtain ⟨-, -, -, -, -, -, f7, -⟩ := gitAdd_fields env s p
    rw [List.foldl_cons, List.map_cons, ih ((gitAdd env s p).2), f7,
      List.append_assoc, List.singleton_append]

lemma nodup_insert_mid (o ph : List Str) (p : Str)
    (h : (o ++ ph).Nodup) (hp : p ∉ o ++ ph) : ((o ++ [p]) ++ ph).Nodup := by
  have hperm : List.Perm ((o ++ [p]) ++ ph) (p :: (o ++ ph)) :=
    (List.perm_append_singleton p o).append_right ph
  exact hperm.nodup_iff.mpr (List.nodup_cons.mpr ⟨hp, h⟩)

lemma nodup_insert_end (o ph : List Str) (p : Str)
    (h : (o ++ ph).Nodup) (hp : p ∉ o ++ ph) : (o ++ (ph ++ [p])).Nodup := by
  rw [← List.append_assoc]
  exact (List.perm_append_singleton p (o ++ ph)).nodup_iff.mpr
    (List.nodup_cons.mpr ⟨hp, h⟩)

/-- The journal invariant survives one Phase-5 step. -/
lemma TxnInv_step (stash0 : List (Str × Str)) (s s' : SystemState) (tx tx' : Txn)
    (p : Str) (avoid0 newAvoid : List Str)
    (hinv : TxnInv stash0 s tx avoid0) (hframe : StepFrame p s tx s' tx')
    (hp : p ∈ avoid0) (hsub : ∀ x ∈ newAvoid, x ∈ avoid0) (hpn : p ∉ newAvoid) :
    TxnInv stash0 s' tx' newAvoid := by
  obtain ⟨hnd, havoid, hpres, hwt, hkv⟩ := hinv
  obtain ⟨hmain, hwtq, hwtp, -, -, -⟩ := hframe
  have hp_not_stashed : p ∉ tx.stashedOverlays ++ tx.stashedPhantoms := by
    intro hmem
    exact havoid p hmem hp
  have hq_ne_p : ∀ q ∈ tx.stashedOverlays ++ tx.stashedPhantoms, q ≠ p := by
    intro q hq he
    exact hp_not_stashed (he ▸ hq)
  rcases hmain with ⟨ho, hph, hstash⟩ | ⟨c, hc, hstash, hlists⟩
  · have hcomb : tx'.stashedOverlays ++ tx'.stashedPhantoms =
        tx.stashedOverlays ++ tx.stashedPhantoms := by rw [ho, hph]
    refine ⟨hcomb ▸ hnd, ?_, ?_, ?_, ?_⟩
    · intro q hq
      rw [hcomb] at hq
      exact fun hmem => havoid q hq (hsub q hmem)
    · intro q hq
      rw [hcomb] at hq
      rw [hstash]
      exact hpres q hq
    · intro q hq
      rw [hcomb] at hq
      rw [hwtq q (hq_ne_p q hq)]
      exact hwt q hq
    · intro kv hm
      rw [hstash] at hm
      rcases hkv kv hm with ⟨q, hq1, hq2⟩ | h0
      · exact Or.inl ⟨q, hcomb ▸ hq1, hq2⟩
      · exact Or.inr h0
  · have hmem_new : ∀ q, q ∈ tx'.stashedOverlays ++ tx'.stashedPhantoms ↔
        (q ∈ tx.stashedOverlays ++ tx.stashedPhantoms ∨ q = p) := by
      intro q
      rcases hlists with ⟨ho, hph⟩ | ⟨ho, hph⟩ <;>
        simp [ho, hph, List.mem_append, List.mem_singleton] <;> tauto
    have hnd' : (tx'.stashedOverlays ++ tx'.stashedPhantoms).Nodup := by
      rcases hlists with ⟨ho, hph⟩ | ⟨ho, hph⟩
      · rw [ho, hph]
        exact nodup_insert_mid _ _ p hnd hp_not_stashed
      · rw [ho, hph]
        exact nodup_insert_end _ _ p hnd hp_not_stashed
    refine ⟨hnd', ?_, ?_, ?_, ?_⟩
    · intro q hq
      rcases (hmem_new q).mp hq with h1 | h1
      · exact fun hmem => havoid q h1 (hsub q hmem)
      · exact h1 ▸ hpn
    · intro q hq
      rw [hstash]
      rcases (hmem_new q).mp hq with h1 | h1
      · rw [findVal_setKey_ne _ _ _ _
          (fun he => (hq_ne_p q h1) (encode_path_injective he))]
        exact hpres q h1
      · rw [h1, findVal_setKey_self]
        rfl
    · intro q hq
      rcases (hmem_new q).mp hq with h1 | h1
      · rw [hwtq q (hq_ne_p q h1)]
        exact hwt q h1
      · rw [h1]
        exact hwtp (by rw [hc]; rfl)
    · intro kv hm
      rw [hstash, setKey] at hm
      rcases List.mem_append.mp hm with hm1 | hm1
      · rcases hkv kv ((mem_eraseKey _ kv _).mp hm1).1 with ⟨q, hq1, hq2⟩ | h0
        · exact Or.inl ⟨q, (hmem_new q).mpr (Or.inl hq1), hq2⟩
        · exact Or.inr h0
      · rw [List.mem_singleton] at hm1
        exact Or.inl ⟨p, (hmem_new p).mpr (Or.inr rfl), by rw [hm1]⟩

lemma stashWrite_of_dir (s : SystemState) (k v : Str) (h : s.stashDirExists = true) :
    stashWrite s k v = some { s with stash := setKey k v s.stash } := by
  rw [stashWrite, if_pos h]

lemma stashWrite_of_not_dir (s : SystemState) (k v : Str) (h : ¬ s.stashDirExists = true) :
    stashWrite s k v = none := by
  rw [stashWrite, if_neg h]

/-- Every outcome of `process_overlay` satisfies the step frame. -/
lemma processOverlay_frame (env : Env) (s : SystemState) (tx : Txn) (p : Str) :
    match processOverlay env s tx p with
    | Except.error (_, s', tx') => StepFrame p s tx s' tx'
    | Except.ok (s', tx') => StepFrame p s tx s' tx' := by
  have hrefl : StepFrame p s tx s tx :=
    ⟨Or.inl ⟨rfl, rfl, rfl⟩, fun q _ => rfl, fun h => h, rfl, rfl, rfl⟩
  cases hwt : s.worktree p with
  | none => simp only [processOverlay, hwt]; exact hrefl
  | some c =>
    by_cases hdir : s.stashDirExists = true
    · have hframe1 : StepFrame p s tx
          { s with stash := setKey (encode_path p) c s.stash }
          { tx with stashedOverlays := tx.stashedOverlays ++ [p] } :=
        ⟨Or.inr ⟨c, hwt, rfl, Or.inl ⟨rfl, rfl⟩⟩, fun q _ => rfl, fun h => h, rfl, rfl, rfl⟩
      cases hbl : s.baselines (encode_path p) with
      | none =>
        simp only [processOverlay, hwt, stashWrite_of_dir s _ _ hdir, hbl]
        exact hframe1
      | some b =>
        have hwt1 : (({ s with stash := setKey (encode_path p) c s.stash } :
            SystemState).worktree p).isSome = true := by
          show (s.worktree p).isSome = true
          rw [hwt]
          rfl
        have hws := wtWrite_of_isSome
          { s with stash := setKey (encode_path p) c s.stash } p b hwt1
        have hframe2 : ∀ s3 : SystemState,
            s3.worktree = (wtSet { s with stash := setKey (encode_path p) c s.stash }
              p b).worktree →
            s3.stash = setKey (encode_path p) c s.stash → s3.lock = s.lock →
            s3.stashDirExists = s.stashDirExists → s3.dirs = s.dirs →
            StepFrame p s tx s3
              { tx with stashedOverlays := tx.stashedOverlays ++ [p],
                        overwritten := tx.overwritten ++ [p] } := by
          intro s3 h1 h2 h3 h4 h5
          refine ⟨Or.inr ⟨c, hwt, h2, Or.inl ⟨rfl, rfl⟩⟩, ?_, ?_, h3, h4, h5⟩
          · intro q hq
            rw [h1]
            rw [wtSet_ne _ p b q hq]
          · intro _
            rw [h1]
            rw [wtSet_at]
            rfl
        obtain ⟨f1, f2, f3, f4, f5, -, -, -⟩ :=
          gitAdd_fields env (wtSet { s with stash := setKey (encode_path p) c s.stash } p b) p
        cases hga : gitAdd env (wtSet { s with stash := setKey (encode_path p) c s.stash } p b) p with
        | mk ok s3 =>
          rw [hga] at f1 f2 f3 f4 f5
          simp only [processOverlay, hwt, stashWrite_of_dir s _ _ hdir, hbl, hws, hga]
          cases ok with
          | true =>
            simp only
            exact hframe2 s3 f1 f2 f3 f4 f5
          | false =>
            simp only
            exact hframe2 s3 f1 f2 f3 f4 f5
    · simp only [processOverlay, hwt, stashWrite_of_not_dir s _ _ hdir]
      exact hrefl

/-- Every outcome of `process_phantom` satisfies the step frame. -/
lemma processPhantom_frame (env : Env) (s : SystemState) (tx : Txn) (p : Str)
    (e : FileEntry) :
    match processPhantom env s tx p e with
    | Except.error (_, s', tx') => StepFrame p s tx s' tx'
    | Except.ok (s', tx') => StepFrame p s tx s' tx' := by
  have hframe0 : ∀ s0 : SystemState, ∀ tx0 : Txn,
      s0.worktree = s.worktree → s0.stash = s.stash → s0.lock = s.lock →
      s0.stashDirExists = s.stashDirExists → s0.dirs = s.dirs →
      tx0.stashedOverlays = tx.stashedOverlays →
      tx0.stashedPhantoms = tx.stashedPhantoms →
      StepFrame p s tx s0 tx0 := by
    intro s0 tx0 h1 h2 h3 h4 h5 h6 h7
    exact ⟨Or.inl ⟨h6, h7, h2⟩, fun q _ => by rw [h1], fun h => by rwa [h1], h3, h4, h5⟩
  rw [processPhantom]
  by_cases hdir : e.is_directory = true
  · rw [if_pos hdir]
    obtain ⟨f1, f2, f3, f4, f5, -, -, -⟩ := gitUnstage_fields env s p
    cases hgu : gitUnstage env s p with
    | mk ok s1 =>
      rw [hgu] at f1 f2 f3 f4 f5
      cases ok
      · exact hframe0 s1 tx f1 f2 f3 f4 f5 rfl rfl
      · exact hframe0 s1 tx f1 f2 f3 f4 f5 rfl rfl
  · rw [if_neg hdir]
    cases hwt : s.worktree p with
    | none =>
      obtain ⟨f1, f2, f3, f4, f5, -, -, -⟩ := gitUnstage_fields env s p
      cases hgu : gitUnstage env s p with
      | mk ok s1 =>
        rw [hgu] at f1 f2 f3 f4 f5
        cases ok
        · exact hframe0 s1 tx f1 f2 f3 f4 f5 rfl rfl
        · exact hframe0 s1 tx f1 f2 f3 f4 f5 rfl rfl
    | some c =>
      simp only [stashWrite]
      by_cases hsd : s.stashDirExists = true
      · rw [if_pos hsd]
        simp only
        set s1 : SystemState := { s with stash := setKey (encode_path p) c s.stash }
          with hs1
        have hframe1 : ∀ s2 : SystemState,
            s2.worktree = s1.worktree → s2.stash = s1.stash → s2.lock = s1.lock →
            s2.stashDirExists = s1.stashDirExists → s2.dirs = s1.dirs →
            StepFrame p s tx s2
              { tx with stashedPhantoms := tx.stashedPhantoms ++ [p] } := by
          intro s2 h1 h2 h3 h4 h5
          refine ⟨Or.inr ⟨c, hwt, ?_, Or.inr ⟨rfl, rfl⟩⟩, ?_, ?_, h3, h4, h5⟩
          · rw [h2]
          · intro q _
            rw [h1]
          · intro h
            rw [h1]
            exact h
        obtain ⟨f1, f2, f3, f4, f5, -, -, -⟩ := gitUnstage_fields env s1 p
        cases hgu : gitUnstage env s1 p with
        | mk ok s2 =>
          rw [hgu] at f1 f2 f3 f4 f5
          cases ok
          · exact hframe1 s2 f1 f2 f3 f4 f5
          · exact hframe1 s2 f1 f2 f3 f4 f5
      · rw [if_neg hsd]
        exact hframe0 s tx rfl rfl rfl rfl rfl rfl rfl

/-- `process_files` preserves the journal invariant up to the point of
failure, and the step frames keep lock, stash directory and directory
set untouched. -/
lemma processFiles_err_inv (env : Env) (l : List (Str × FileEntry)) :
    ∀ s tx er s1 tx1 stash0,
    processFiles env l s tx = Except.error (er, s1, tx1) →
    (l.map Prod.fst).Nodup →
    TxnInv stash0 s tx (l.map Prod.fst) →
    TxnInv stash0 s1 tx1 [] ∧ s1.lock = s.lock ∧
      s1.stashDirExists = s.stashDirExists ∧ s1.dirs = s.dirs := by
  induction l with
  | nil =>
    intro s tx er s1 tx1 stash0 hr _ _
    exact absurd hr (by rw [processFiles]; simp)
  | cons pe rest ih =>
    intro s tx er s1 tx1 stash0 hr hnd hinv
    obtain ⟨p, e⟩ := pe
    rw [List.map_cons, List.nodup_cons] at hnd
    rw [processFiles] at hr
    have hframe : match (match e.file_type with
        | FileType.Overlay => processOverlay env s tx p
        | FileType.Phantom => processPhantom env s tx p e) with
      | Except.error (_, s', tx') => StepFrame p s tx s' tx'
      | Except.ok (s', tx') => StepFrame p s tx s' tx' := by
      cases e.file_type
      · exact processOverlay_frame env s tx p
      · exact processPhantom_frame env s tx p e
    cases hstep : (match e.file_type with
        | FileType.Overlay => processOverlay env s tx p
        | FileType.Phantom => processPhantom env s tx p e) with
    | error r =>
      rw [hstep] at hr hframe
      obtain ⟨er', s', tx'⟩ := r
      have heq : er' = er ∧ s' = s1 ∧ tx' = tx1 := by
        have := Except.error.inj hr
        exact ⟨congrArg Prod.fst this, congrArg (fun x => x.2.1) this,
               congrArg (fun x => x.2.2) this⟩
      obtain ⟨-, hseq, htxeq⟩ := heq
      subst hseq
      subst htxeq
      refine ⟨TxnInv_step stash0 s s' tx tx' p _ [] hinv hframe
          (List.mem_cons_self _ _) (fun x hx => absurd hx (List.not_mem_nil _))
          (List.not_mem_nil _), ?_, ?_, ?_⟩
      · exact hframe.2.2.2.1
      · exact hframe.2.2.2.2.1
      · exact hframe.2.2.2.2.2
    | ok r =>
      rw [hstep] at hr hframe
      obtain ⟨s', tx'⟩ := r
      have hinv' : TxnInv stash0 s' tx' (rest.map Prod.fst) :=
        TxnInv_step stash0 s s' tx tx' p _ _ hinv hframe
          (List.mem_cons_self _ _) (fun x hx => List.mem_cons_of_mem _ hx) hnd.1
      obtain ⟨h1, h2, h3, h4⟩ := ih s' tx' er s1 tx1 stash0 hr hnd.2 hinv'
      refine ⟨h1, ?_, ?_, ?_⟩
      · rw [h2]
        exact hframe.2.2.2.1
      · rw [h3]
        exact hframe.2.2.2.2.1
      · rw [h4]
        exact hframe.2.2.2.2.2

lemma hardChecksFiles_ok (s : SystemState) : ∀ l : List (Str × FileEntry),
    (∀ q e, (q, e) ∈ l → e.file_type = FileType.Overlay →
        (s.worktree q).isSome = true ∧ (s.baselines (encode_path q)).isSome = true) →
    hardChecksFiles s l = Except.ok () := by
  intro l
  induction l with
  | nil => intro _; rfl
  | cons qe rest ih =>
    intro h
    obtain ⟨q0, e0⟩ := qe
    cases hft : e0.file_type with
    | Overlay =>
      obtain ⟨h1, h2⟩ := h q0 e0 (List.mem_cons_self _ _) hft
      simp only [hardChecksFiles, hft, if_pos h1, if_pos h2]
      exact ih (fun q e hm hov => h q e (List.mem_cons_of_mem _ hm) hov)
    | Phantom =>
      simp only [hardChecksFiles, hft]
      exact ih (fun q e hm hov => h q e (List.mem_cons_of_mem _ hm) hov)

lemma run_hard_checks_ok (s : SystemState) (cfg : ShadowConfig) (hstash : s.stash = [])
    (h : ∀ q e, (q, e) ∈ cfg.files → e.file_type = FileType.Overlay →
        (s.worktree q).isSome = true ∧ (s.baselines (encode_path q)).isSome = true) :
    run_hard_checks s cfg = Except.ok () := by
  rw [run_hard_checks, if_neg (by rw [hstash]; rintro ⟨-, h2⟩; exact h2 rfl)]
  exact hardChecksFiles_ok s cfg.files h

lemma detectPartial_ok (env : Env) : ∀ l : List (Str × FileEntry),
    (∀ q e, (q, e) ∈ l → e.file_type = FileType.Overlay →
        ¬((env.stagingStatus q).1 = true ∧ (env.stagingStatus q).2 = true)) →
    detectPartialStaging env l = Except.ok () := by
  intro l
  induction l with
  | nil => intro _; rfl
  | cons qe rest ih =>
    intro h
    obtain ⟨q0, e0⟩ := qe
    cases hft : e0.file_type with
    | Overlay =>
      simp only [detectPartialStaging, hft,
        if_neg (h q0 e0 (List.mem_cons_self _ _) hft)]
      exact ih (fun q e hm hov => h q e (List.mem_cons_of_mem _ hm) hov)
    | Phantom =>
      simp only [detectPartialStaging, hft]
      exact ih (fun q e hm hov => h q e (List.mem_cons_of_mem _ hm) hov)

lemma detectPartial_err_of_mem (env : Env) : ∀ (l : List (Str × FileEntry))
    (p : Str) (e : FileEntry), (p, e) ∈ l → e.file_type = FileType.Overlay →
    (env.stagingStatus p).1 = true ∧ (env.stagingStatus p).2 = true →
    ∃ q, (∃ e', (q, e') ∈ l ∧ e'.file_type = FileType.Overlay ∧
            (env.stagingStatus q).1 = true ∧ (env.stagingStatus q).2 = true) ∧
      detectPartialStaging env l = Except.error (ShadowErr.PartialStage q) := by
  intro l
  induction l with
  | nil => intro p e hmem _ _; exact absurd hmem (List.not_mem_nil _)
  | cons qe rest ih =>
    intro p e hmem hov hst
    obtain ⟨q0, e0⟩ := qe
    cases hft : e0.file_type with
    | Overlay =>
      by_cases hc : (env.stagingStatus q0).1 = true ∧ (env.stagingStatus q0).2 = true
      · refine ⟨q0, ⟨e0, List.mem_cons_self _ _, hft, hc⟩, ?_⟩
        simp only [detectPartialStaging, hft, if_pos hc]
      · rcases List.mem_cons.mp hmem with h1 | h1
        · have hpq : p = q0 := congrArg Prod.fst h1
          exact absurd (hpq ▸ hst) hc
        · obtain ⟨q, hq1, hq2⟩ := ih p e h1 hov hst
          refine ⟨q, ?_, ?_⟩
          · obtain ⟨e', he1, he2, he3⟩ := hq1
            exact ⟨e', List.mem_cons_of_mem _ he1, he2, he3⟩
          · simp only [detectPartialStaging, hft, if_neg hc]
            exact hq2
    | Phantom =>
      rcases List.mem_cons.mp hmem with h1 | h1
      · have he : e = e0 := congrArg Prod.snd h1
        rw [he, hft] at hov
        exact absurd hov (by simp)
      · obtain ⟨q, hq1, hq2⟩ := ih p e h1 hov hst
        refine ⟨q, ?_, ?_⟩
        · obtain ⟨e', he1, he2, he3⟩ := hq1
          exact ⟨e', List.mem_cons_of_mem _ he1, he2, he3⟩
        · simp only [detectPartialStaging, hft]
          exact hq2

lemma setLock_none_eq (s : SystemState) (h : s.lock = none) :
    ({ s with lock := none } : SystemState) = s := by
  cases s with
  | mk w d sd st bl ix lk tr =>
    simp only at h
    rw [h]

lemma hardChecksFiles_lock_irrel (s : SystemState) (lk : Option Str) :
    ∀ l, hardChecksFiles { s with lock := lk } l = hardChecksFiles s l := by
  intro l
  induction l with
  | nil => rfl
  | cons qe rest ih =>
    obtain ⟨q, e⟩ := qe
    cases hft : e.file_type with
    | Overlay =>
      simp only [hardChecksFiles, hft]
      by_cases h1 : (s.worktree q).isSome = true
      · rw [if_pos h1, if_pos h1]
        by_cases h2 : (s.baselines (encode_path q)).isSome = true
        · rw [if_pos h2, if_pos h2, ih]
        · rw [if_neg h2, if_neg h2]
      · rw [if_neg h1, if_neg h1]
    | Phantom =>
      simp only [hardChecksFiles, hft]
      exact ih

lemma run_hard_checks_lock_irrel (s : SystemState) (lk : Option Str)
    (cfg : ShadowConfig) :
    run_hard_checks { s with lock := lk } cfg = run_hard_checks s cfg := by
  rw [run_hard_checks, run_hard_checks]
  by_cases h : s.stashDirExists = true ∧ s.stash ≠ []
  · rw [if_pos h, if_pos h]
  · rw [if_neg h, if_neg h, hardChecksFiles_lock_irrel]

/-- C3: if the transaction reaches partial-stage detection (the lock is
free and the hard checks pass) and some overlay's staging status is
`(true, true)`, pre-commit fails with `PartialStage` naming such an
overlay, and the resulting state is exactly the initial one: nothing was
stashed, no worktree file overwritten, no index entry touched, and the
transient lock has been released again. -/
theorem pre_commit_partial_stage (env : Env) (cfg : ShadowConfig) (s : SystemState)
    (hlock : s.lock = none)
    (hhard : run_hard_checks s cfg = Except.ok ())
    (p : Str) (e : FileEntry) (hmem : (p, e) ∈ cfg.files)
    (hov : e.file_type = FileType.Overlay)
    (hst : (env.stagingStatus p).1 = true ∧ (env.stagingStatus p).2 = true) :
    ∃ q, (∃ e', (q, e') ∈ cfg.files ∧ e'.file_type = FileType.Overlay ∧
            (env.stagingStatus q).1 = true ∧ (env.stagingStatus q).2 = true) ∧
      preCommitHandle env cfg s = (Except.error (ShadowErr.PartialStage q), s) := by
  obtain ⟨q, hq, hdet⟩ := detectPartial_err_of_mem env cfg.files p e hmem hov hst
  refine ⟨q, hq, ?_⟩
  have hne : cfg.files ≠ [] := by
    intro h
    rw [h] at hmem
    exact absurd hmem (List.not_mem_nil _)
  have hacq : acquire_lock env.lockEnv s.lock =
      Except.ok (some (lockContent env.lockEnv.myPid env.lockEnv.now)) := by
    rw [hlock]
    rfl
  have hh2 : run_hard_checks
      { s with lock := some (lockContent env.lockEnv.myPid env.lockEnv.now) } cfg =
      Except.ok () := by
    rw [run_hard_checks_lock_irrel]
    exact hhard
  simp only [preCommitHandle, hacq, if_neg hne, hh2, hdet]
  rw [show releaseLock
      { s with lock := some (lockContent env.lockEnv.myPid env.lockEnv.now) } =
      ({ s with lock := none } : SystemState) from rfl, setLock_none_eq s hlock]

/-- Witness for C3: a one-overlay registry whose file is partially
staged; the handler fails with `PartialStage` for it and the state is
untouched. -/
theorem pre_commit_partial_stage_witness :
    ∃ q, (∃ e', (q, e') ∈ sampleCfg.files ∧ e'.file_type = FileType.Overlay ∧
            (envPartial.stagingStatus q).1 = true ∧
            (envPartial.stagingStatus q).2 = true) ∧
      preCommitHandle envPartial sampleCfg sampleStateR =
        (Except.error (ShadowErr.PartialStage q), sampleStateR) :=
  pre_commit_partial_stage envPartial sampleCfg sampleStateR rfl rfl
    ("f".toList) sampleEntry (by decide) rfl ⟨rfl, rfl⟩

/-- C2: if phase 5 fails on some entry (here: after the checks passed,
`process_files` returns an error with journal `tx1` and state `s1`),
the handler rolls back — every path recorded in `stashed_overlays` or
`stashed_phantoms` gets its stashed bytes written back to the worktree
and its stash entry deleted, and the trace grows past the failure point
by exactly one re-stage (`git add`) invocation per path recorded in
`overwritten`, in order (the restore loop of the rollback adds no trace
entries) — releases the lock, and propagates the error. -/
theorem pre_commit_rollback (env : Env) (cfg : ShadowConfig) (s : SystemState)
    (hkeys : (cfg.files.map Prod.fst).Nodup)
    (hlock : s.lock = none) (hstash : s.stash = [])
    (hhard : run_hard_checks s cfg = Except.ok ())
    (hdet : detectPartialStaging env cfg.files = Except.ok ())
    (hne : cfg.files ≠ [])
    (er : ShadowErr) (s1 : SystemState) (tx1 : Txn)
    (hfail : processFiles env cfg.files
        { s with lock := some (lockContent env.lockEnv.myPid env.lockEnv.now) }
        Txn.new = Except.error (er, s1, tx1)) :
    ∃ s2, preCommitHandle env cfg s = (Except.error er, s2) ∧
      s2.lock = none ∧
      (∀ p ∈ tx1.stashedOverlays ++ tx1.stashedPhantoms,
        ∃ b, findVal (encode_path p) s1.stash = some b ∧
          s2.worktree p = some b ∧ findVal (encode_path p) s2.stash = none) ∧
      s2.trace = s1.trace ++ tx1.overwritten.map GitOp.stage := by
  have hacq : acquire_lock env.lockEnv s.lock =
      Except.ok (some (lockContent env.lockEnv.myPid env.lockEnv.now)) := by
    rw [hlock]
    rfl
  have hh2 : run_hard_checks
      { s with lock := some (lockContent env.lockEnv.myPid env.lockEnv.now) } cfg =
      Except.ok () := by
    rw [run_hard_checks_lock_irrel]
    exact hhard
  have hinv0 : TxnInv []
      { s with lock := some (lockContent env.lockEnv.myPid env.lockEnv.now) }
      Txn.new (cfg.files.map Prod.fst) := by
    refine ⟨List.nodup_nil, ?_, ?_, ?_, ?_⟩
    · intro p hp
      exact absurd hp (List.not_mem_nil _)
    · intro p hp
      exact absurd hp (List.not_mem_nil _)
    · intro p hp
      exact absurd hp (List.not_mem_nil _)
    · intro kv hm
      rw [show ({ s with lock := some (lockContent env.lockEnv.myPid env.lockEnv.now) } :
          SystemState).stash = s.stash from rfl, hstash] at hm
      exact absurd hm (List.not_mem_nil _)
  obtain ⟨⟨hnd, -, hpres, hwt, -⟩, -, -, -⟩ :=
    processFiles_err_inv env cfg.files _ Txn.new er s1 tx1 [] hfail hkeys hinv0
  obtain ⟨r1, r2, r3, r4, r5, r6, r7, r8, r9⟩ :=
    rollbackRestore_spec (tx1.stashedOverlays ++ tx1.stashedPhantoms) s1 hnd hpres hwt
  obtain ⟨a1, a2, a3, a4, a5, a6, a7⟩ :=
    addFold_spec env tx1.overwritten
      ((tx1.stashedOverlays ++ tx1.stashedPhantoms).foldl restoreStashed s1)
  refine ⟨releaseLock (rollback env tx1 s1), ?_, rfl, ?_, ?_⟩
  · simp only [preCommitHandle, hacq, if_neg hne, hh2, hdet, hfail]
  · intro p hp
    obtain ⟨b, hb1, hb2, hb3⟩ := r1 p hp
    refine ⟨b, hb1, ?_, ?_⟩
    · show (rollback env tx1 s1).worktree p = some b
      rw [rollback]
      rw [show ((tx1.overwritten.foldl (fun s' q => (gitAdd env s' q).2)
          ((tx1.stashedOverlays ++ tx1.stashedPhantoms).foldl restoreStashed s1)).worktree) =
          (((tx1.stashedOverlays ++ tx1.stashedPhantoms).foldl restoreStashed s1).worktree)
          from a3]
      exact hb2
    · show findVal (encode_path p) (rollback env tx1 s1).stash = none
      rw [rollback]
      rw [show ((tx1.overwritten.foldl (fun s' q => (gitAdd env s' q).2)
          ((tx1.stashedOverlays ++ tx1.stashedPhantoms).foldl restoreStashed s1)).stash) =
          (((tx1.stashedOverlays ++ tx1.stashedPhantoms).foldl restoreStashed s1).stash)
          from a4]
      exact hb3
  · show (rollback env tx1 s1).trace = s1.trace ++ tx1.overwritten.map GitOp.stage
    rw [rollback, addFold_trace, r6]

/-- Witness for C2: a one-overlay registry whose `git add` fails; the
error propagates, the shadow bytes return to the worktree, the stash
entry is gone, a re-stage is recorded, and the lock is free. -/
theorem pre_commit_rollback_witness :
    ∃ s2, preCommitHandle envC2 sampleCfg sampleStateR =
        (Except.error ShadowErr.GitCommand, s2) ∧
      s2.lock = none ∧
      (∀ p ∈ c2Txn.stashedOverlays ++ c2Txn.stashedPhantoms,
        ∃ b, findVal (encode_path p) c2FailState.stash = some b ∧
          s2.worktree p = some b ∧ findVal (encode_path p) s2.stash = none) ∧
      s2.trace = c2FailState.trace ++ c2Txn.overwritten.map GitOp.stage :=
  pre_commit_rollback envC2 sampleCfg sampleStateR (by decide) rfl rfl rfl rfl
    (by decide) ShadowErr.GitCommand c2FailState c2Txn rfl

lemma findVal_of_mem_nodup {α : Type} : ∀ l : List (Str × α),
    (l.map Prod.fst).Nodup → ∀ kv ∈ l, findVal kv.1 l = some kv.2 := by
  intro l
  induction l with
  | nil => intro _ kv hm; exact absurd hm (List.not_mem_nil _)
  | cons hd rest ih =>
    intro hnd kv hm
    rw [List.map_cons, List.nodup_cons] at hnd
    rcases List.mem_cons.mp hm with h1 | h1
    · rw [h1, findVal, if_pos rfl]
    · rw [findVal]
      by_cases hk : hd.1 = kv.1
      · exact absurd (hk ▸ (List.mem_map.mpr ⟨kv, h1, rfl⟩)) hnd.1
      · rw [if_neg hk]
        exact ih hnd.2 kv h1

lemma postRestore_fields : ∀ (files : List (Str × Str)) (s : SystemState),
    (postRestore files s).1.lock = s.lock ∧ (postRestore files s).1.index = s.index ∧
    (postRestore files s).1.dirs = s.dirs ∧
    (postRestore files s).1.stashDirExists = s.stashDirExists ∧
    (postRestore files s).1.baselines = s.baselines ∧
    (postRestore files s).1.trace = s.trace := by
  intro files
  induction files with
  | nil => intro s; exact ⟨rfl, rfl, rfl, rfl, rfl, rfl⟩
  | cons kv rest ih =>
    intro s
    rw [postRestore]
    cases hw : wtWrite s (decode_path kv.1) kv.2 with
    | some s1 =>
      have hs1 := wtWrite_eq_some hw
      subst hs1
      obtain ⟨i1, i2, i3, i4, i5, i6⟩ :=
        ih (stashRemove (wtSet s (decode_path kv.1) kv.2) kv.1)
      exact ⟨i1, i2, i3, i4, i5, i6⟩
    | none =>
      obtain ⟨i1, i2, i3, i4, i5, i6⟩ := ih s
      exact ⟨i1, i2, i3, i4, i5, i6⟩

lemma postRestore_failed_nil : ∀ (files : List (Str × Str)) (s : SystemState),
    s.stash = files → (files.map Prod.fst).Nodup →
    (postRestore files s).2 = [] → (postRestore files s).1.stash = [] := by
  intro files
  induction files with
  | nil =>
    intro s hs _ _
    show s.stash = []
    exact hs
  | cons kv rest ih =>
    intro s hs hnd hf
    rw [List.map_cons, List.nodup_cons] at hnd
    rw [postRestore] at hf ⊢
    cases hw : wtWrite s (decode_path kv.1) kv.2 with
    | some s1 =>
      rw [hw] at hf
      have hs1 := wtWrite_eq_some hw
      subst hs1
      refine ih (stashRemove (wtSet s (decode_path kv.1) kv.2) kv.1) ?_ hnd.2 hf
      show eraseKey kv.1 s.stash = rest
      rw [hs, eraseKey, if_pos rfl]
      exact eraseKey_of_not_mem_keys kv.1 rest hnd.1
    | none =>
      rw [hw] at hf
      exact absurd hf (by simp)

/-- Per-file behaviour of the post-commit restore loop on a directory
listing with distinct encoded names and distinct decoded paths, each
entry present in the stash: a file whose decoded parent location is
writable is written back and its entry deleted; one that is not stays in
the stash and is collected as a failure; the failure list is empty
exactly when every entry was writable. -/
lemma postRestore_perfile : ∀ (files : List (Str × Str)) (s : SystemState),
    (files.map Prod.fst).Nodup →
    (files.map (fun kv => decode_path kv.1)).Nodup →
    (∀ kv ∈ files, findVal kv.1 s.stash = some kv.2) →
    (∀ kv ∈ files,
      (canWrite s (decode_path kv.1) →
        (postRestore files s).1.worktree (decode_path kv.1) = some kv.2 ∧
        findVal kv.1 (postRestore files s).1.stash = none) ∧
      (¬ canWrite s (decode_path kv.1) →
        findVal kv.1 (postRestore files s).1.stash = some kv.2)) ∧
    ((postRestore files s).2 = [] ↔ ∀ kv ∈ files, canWrite s (decode_path kv.1)) ∧
    (∀ q, (∀ kv ∈ files, decode_path kv.1 ≠ q) →
        (postRestore files s).1.worktree q = s.worktree q) ∧
    (∀ k, findVal k s.stash = none → findVal k (postRestore files s).1.stash = none) ∧
    (∀ k, k ∉ files.map Prod.fst →
        findVal k (postRestore files s).1.stash = findVal k s.stash) := by
  intro files
  induction files with
  | nil =>
    intro s _ _ _
    refine ⟨fun kv hm => absurd hm (List.not_mem_nil _), ?_, fun q _ => rfl,
      fun k hk => hk, fun k _ => rfl⟩
    constructor
    · intro _ kv hm
      exact absurd hm (List.not_mem_nil _)
    · intro _
      rfl
  | cons kv rest ih =>
    intro s hnd hdec hpres
    rw [List.map_cons, List.nodup_cons] at hnd
    rw [List.map_cons, List.nodup_cons] at hdec
    have hpres_rest_ne : ∀ kv' ∈ rest, kv'.1 ≠ kv.1 := by
      intro kv' hm' he
      exact hnd.1 (he ▸ List.mem_map.mpr ⟨kv', hm', rfl⟩)
    have hdec_rest_ne : ∀ kv' ∈ rest, decode_path kv'.1 ≠ decode_path kv.1 := by
      intro kv' hm' he
      exact hdec.1 (he ▸ List.mem_map.mpr ⟨kv', hm', rfl⟩)
    by_cases hcw : canWrite s (decode_path kv.1)
    · have hw : wtWrite s (decode_path kv.1) kv.2 =
          some (wtSet s (decode_path kv.1) kv.2) := by
        rw [wtWrite, if_pos hcw]
      have hru : postRestore (kv :: rest) s =
          postRestore rest (stashRemove (wtSet s (decode_path kv.1) kv.2) kv.1) := by
        rw [postRestore, hw]
      set s' : SystemState := stashRemove (wtSet s (decode_path kv.1) kv.2) kv.1 with hs'
      have hs'stash : s'.stash = eraseKey kv.1 s.stash := rfl
      have hs'wt : ∀ q, q ≠ decode_path kv.1 → s'.worktree q = s.worktree q := by
        intro q hq
        show (wtSet s (decode_path kv.1) kv.2).worktree q = s.worktree q
        exact wtSet_ne _ _ _ q hq
      have hcw' : ∀ kv' ∈ rest, (canWrite s' (decode_path kv'.1) ↔
          canWrite s (decode_path kv'.1)) := by
        intro kv' hm'
        exact canWrite_congr s s' (decode_path kv'.1) rfl
          (hs'wt _ (hdec_rest_ne kv' hm'))
      have hpres' : ∀ kv' ∈ rest, findVal kv'.1 s'.stash = some kv'.2 := by
        intro kv' hm'
        rw [hs'stash, findVal_eraseKey_ne _ _ _ (hpres_rest_ne kv' hm')]
        exact hpres kv' (List.mem_cons_of_mem _ hm')
      obtain ⟨ih1, ih2, ih3, ih4, ih5⟩ := ih s' hnd.2 hdec.2 hpres'
      rw [hru]
      refine ⟨?_, ?_, ?_, ?_, ?_⟩
      · intro kv' hm'
        rcases List.mem_cons.mp hm' with h1 | h1
        · subst h1
          constructor
          · intro _
            constructor
            · rw [ih3 (decode_path kv'.1) (fun kv2 hm2 => hdec_rest_ne kv2 hm2)]
              show (wtSet s (decode_path kv'.1) kv'.2).worktree (decode_path kv'.1) = _
              exact wtSet_at _ _ _
            · refine ih4 _ ?_
              rw [hs'stash]
              exact findVal_eraseKey_self_none kv'.1 s.stash
          · intro hnc
            exact absurd hcw hnc
        · obtain ⟨c1, c2⟩ := ih1 kv' h1
          constructor
          · intro hc
            exact c1 ((hcw' kv' h1).mpr hc)
          · intro hc
            exact c2 (fun hcc => hc ((hcw' kv' h1).mp hcc))
      · rw [ih2]
        constructor
        · intro hall kv' hm'
          rcases List.mem_cons.mp hm' with h1 | h1
          · exact h1 ▸ hcw
          · exact (hcw' kv' h1).mp (hall kv' h1)
        · intro hall kv' hm'
          exact (hcw' kv' hm').mpr (hall kv' (List.mem_cons_of_mem _ hm'))
      · intro q hq
        rw [ih3 q (fun kv2 hm2 => hq kv2 (List.mem_cons_of_mem _ hm2)),
            hs'wt q (fun he => hq kv (List.mem_cons_self _ _) he.symm)]
      · intro k hk
        refine ih4 k ?_
        rw [hs'stash]
        exact findVal_eraseKey_none _ _ _ hk
      · intro k hk
        rw [List.map_cons, List.mem_cons] at hk
        push_neg at hk
        rw [ih5 k hk.2, hs'stash, findVal_eraseKey_ne _ _ _ (fun he => hk.1 he)]
    · have hw : wtWrite s (decode_path kv.1) kv.2 = none := by
        rw [wtWrite, if_neg hcw]
      have hru1 : (postRestore (kv :: rest) s).1 = (postRestore rest s).1 := by
        rw [postRestore, hw]
      have hru2 : (postRestore (kv :: rest) s).2 =
          decode_path kv.1 :: (postRestore rest s).2 := by
        rw [postRestore, hw]
      have hpres' : ∀ kv' ∈ rest, findVal kv'.1 s.stash = some kv'.2 :=
        fun kv' hm' => hpres kv' (List.mem_cons_of_mem _ hm')
      obtain ⟨ih1, ih2, ih3, ih4, ih5⟩ := ih s hnd.2 hdec.2 hpres'
      refine ⟨?_, ?_, ?_, ?_, ?_⟩
      · intro kv' hm'
        rcases List.mem_cons.mp hm' with h1 | h1
        · subst h1
          constructor
          · intro hc
            exact absurd hc hcw
          · intro _
            rw [hru1, ih5 kv'.1 (fun hmem => hnd.1 hmem)]
            exact hpres kv' (List.mem_cons_self _ _)
        · obtain ⟨c1, c2⟩ := ih1 kv' h1
          exact ⟨fun hc => hru1 ▸ c1 hc, fun hc => hru1 ▸ c2 hc⟩
      · rw [hru2]
        constructor
        · intro he
          exact absurd he (by simp)
        · intro hall
          exact absurd (hall kv (List.mem_cons_self _ _)) hcw
      · intro q hq
        rw [hru1]
        exact ih3 q (fun kv2 hm2 => hq kv2 (List.mem_cons_of_mem _ hm2))
      · intro k hk
        rw [hru1]
        exact ih4 k hk
      · intro k hk
        rw [List.map_cons, List.mem_cons] at hk
        push_neg at hk
        rw [hru1]
        exact ih5 k hk.2

/-- The sweep of an unscoped `restore` succeeds and leaves the stash
empty (parent directories are created before each write). -/
lemma restoreSweep_none : ∀ (files : List (Str × Str)) (s : SystemState),
    s.stash = files → (files.map Prod.fst).Nodup →
    ∃ s1, restoreSweep none files s = Except.ok s1 ∧ s1.stash = [] := by
  intro files
  induction files with
  | nil =>
    intro s hs _
    exact ⟨s, rfl, hs⟩
  | cons kv rest ih =>
    intro s hs hnd
    rw [List.map_cons, List.nodup_cons] at hnd
    have hcw : canWrite (mkdirAll s (parentOf (decode_path kv.1))) (decode_path kv.1) := by
      by_cases hp : parentOf (decode_path kv.1) = []
      · exact Or.inl hp
      · refine Or.inr (Or.inl ?_)
        rw [mkdirAll, if_neg hp]
        exact List.mem_cons_self _ _
    have hw : wtWrite (mkdirAll s (parentOf (decode_path kv.1))) (decode_path kv.1) kv.2 =
        some (wtSet (mkdirAll s (parentOf (decode_path kv.1))) (decode_path kv.1) kv.2) := by
      rw [wtWrite, if_pos hcw]
    have hru : restoreSweep none (kv :: rest) s =
        restoreSweep none rest
          (stashRemove (wtSet (mkdirAll s (parentOf (decode_path kv.1)))
            (decode_path kv.1) kv.2) kv.1) := by
      rw [restoreSweep, if_pos (Or.inl rfl)]
      simp only [hw]
    rw [hru]
    refine ih _ ?_ hnd.2
    show eraseKey kv.1 (mkdirAll s (parentOf (decode_path kv.1))).stash = rest
    have hms : (mkdirAll s (parentOf (decode_path kv.1))).stash = s.stash := by
      rw [mkdirAll]
      by_cases hp : parentOf (decode_path kv.1) = []
      · rw [if_pos hp]
      · rw [if_neg hp]
    rw [hms, hs, eraseKey, if_pos rfl]
    exact eraseKey_of_not_mem_keys kv.1 rest hnd.1

lemma acquire_lock_ok_isSome (env : LockEnv) (lf lk : Option Str)
    (h : acquire_lock env lf = Except.ok lk) : lk.isSome = true := by
  cases lf with
  | none =>
    simp only [acquire_lock] at h
    rw [← Except.ok.inj h]
    rfl
  | some c =>
    simp only [acquire_lock] at h
    cases hp : parse_lock env.parseTs c with
    | none =>
      simp only [hp] at h
      rw [← Except.ok.inj h]
      rfl
    | some info =>
      simp only [hp] at h
      by_cases he : info.pid = env.myPid
      · rw [if_pos he] at h
        rw [← Except.ok.inj h]
        rfl
      · rw [if_neg he] at h
        by_cases ha : env.alive info.pid = true
        · rw [if_pos ha] at h
          exact absurd h (by simp)
        · rw [if_neg ha] at h
          exact absurd h (by simp)

lemma processFiles_ok_lock (env : Env) : ∀ (l : List (Str × FileEntry)) (s : SystemState)
    (tx : Txn) (s1 : SystemState) (tx1 : Txn),
    processFiles env l s tx = Except.ok (s1, tx1) → s1.lock = s.lock := by
  intro l
  induction l with
  | nil =>
    intro s tx s1 tx1 h
    rw [processFiles] at h
    have h2 : s = s1 := congrArg Prod.fst (Except.ok.inj h)
    rw [h2]
  | cons pe rest ih =>
    intro s tx s1 tx1 h
    obtain ⟨p, e⟩ := pe
    rw [processFiles] at h
    have hframe : match (match e.file_type with
        | FileType.Overlay => processOverlay env s tx p
        | FileType.Phantom => processPhantom env s tx p e) with
      | Except.error (_, s', tx') => StepFrame p s tx s' tx'
      | Except.ok (s', tx') => StepFrame p s tx s' tx' := by
      cases e.file_type
      · exact processOverlay_frame env s tx p
      · exact processPhantom_frame env s tx p e
    cases hstep : (match e.file_type with
        | FileType.Overlay => processOverlay env s tx p
        | FileType.Phantom => processPhantom env s tx p e) with
    | error r =>
      rw [hstep] at h
      exact absurd h (by simp)
    | ok r =>
      rw [hstep] at h hframe
      obtain ⟨s', tx'⟩ := r
      rw [ih s' tx' s1 tx1 h]
      exact hframe.2.2.2.1

lemma TxnInv_init (s : SystemState) (avoid : List Str) (h : s.stash = []) :
    TxnInv [] s Txn.new avoid := by
  refine ⟨List.nodup_nil, ?_, ?_, ?_, ?_⟩
  · intro p hp
    exact absurd hp (List.not_mem_nil _)
  · intro p hp
    exact absurd hp (List.not_mem_nil _)
  · intro p hp
    exact absurd hp (List.not_mem_nil _)
  · intro kv hm
    rw [h] at hm
    exact absurd hm (List.not_mem_nil _)

/-- C4, counterexample: with the stash directory absent, the post-commit
hook returns without releasing the held lock (the claim says the lock is
released when the stash is absent); and for a stash entry whose decoded
path `a/b` has no parent directory in the worktree, the hook does not
create the directory — the write fails, the entry stays in the stash and
the file is not restored. -/
theorem post_commit_cex :
    (sPostCex1.lock = some ("L".toList) ∧
      postCommitHandle sPostCex1 = (Except.ok (), sPostCex1)) ∧
    ((postCommitHandle sPostCex2).2.lock = some ("L".toList) ∧
      findVal (encode_path ("a/b".toList)) (postCommitHandle sPostCex2).2.stash =
        some ("c".toList) ∧
      (postCommitHandle sPostCex2).2.worktree ("a/b".toList) = none) :=
  ⟨⟨rfl, rfl⟩, rfl, rfl, rfl⟩

/-- C4, amended: when the stash directory is absent the hook returns
with the state (and the lock) untouched; when it exists and the stash is
empty the lock is released; when the stash is non-empty, each entry's
filename is decoded and its bytes are written to that worktree location
only if the parent directory already exists or the file does (no parent
directories are created), the entry being deleted on success and kept on
failure; the lock is released exactly when every per-file step
succeeded, and is retained when any failed. -/
theorem post_commit_spec (s : SystemState)
    (hnodup : (s.stash.map Prod.fst).Nodup)
    (hdec : (s.stash.map (fun kv => decode_path kv.1)).Nodup) :
    (s.stashDirExists = false → postCommitHandle s = (Except.ok (), s)) ∧
    (s.stashDirExists = true → s.stash = [] →
        postCommitHandle s = (Except.ok (), releaseLock s)) ∧
    (s.stashDirExists = true → s.stash ≠ [] →
      (postCommitHandle s).1 = Except.ok () ∧
      (∀ kv ∈ s.stash,
        (canWrite s (decode_path kv.1) →
          (postCommitHandle s).2.worktree (decode_path kv.1) = some kv.2 ∧
          findVal kv.1 (postCommitHandle s).2.stash = none) ∧
        (¬ canWrite s (decode_path kv.1) →
          findVal kv.1 (postCommitHandle s).2.stash = some kv.2)) ∧
      ((∀ kv ∈ s.stash, canWrite s (decode_path kv.1)) →
        (postCommitHandle s).2.lock = none ∧ (postCommitHandle s).2.stash = []) ∧
      (¬ (∀ kv ∈ s.stash, canWrite s (decode_path kv.1)) →
        (postCommitHandle s).2.lock = s.lock)) := by
  refine ⟨?_, ?_, ?_⟩
  · intro hdir
    rw [postCommitHandle, if_neg (by rw [hdir]; exact Bool.false_ne_true)]
  · intro hdir hst
    rw [postCommitHandle, if_pos hdir, if_pos hst]
  · intro hdir hst
    have hpres := findVal_of_mem_nodup s.stash hnodup
    obtain ⟨L1, L2, L3, L4, L5⟩ := postRestore_perfile s.stash s hnodup hdec hpres
    obtain ⟨F1, F2, F3, F4, F5, F6⟩ := postRestore_fields s.stash s
    by_cases hall : ∀ kv ∈ s.stash, canWrite s (decode_path kv.1)
    · have hr2 : (postRestore s.stash s).2 = [] := L2.mpr hall
      have hpc : postCommitHandle s =
          (Except.ok (), releaseLock (postRestore s.stash s).1) := by
        simp only [postCommitHandle]
        rw [if_pos hdir, if_neg hst, if_pos hr2]
      rw [hpc]
      refine ⟨rfl, ?_, ?_, ?_⟩
      · intro kv hm
        refine ⟨fun hc => ?_, fun hc => absurd (hall kv hm) hc⟩
        obtain ⟨w1, w2⟩ := (L1 kv hm).1 hc
        exact ⟨w1, w2⟩
      · intro _
        exact ⟨rfl, postRestore_failed_nil s.stash s rfl hnodup hr2⟩
      · intro hno
        exact absurd hall hno
    · have hr2 : (postRestore s.stash s).2 ≠ [] := fun he => hall (L2.mp he)
      have hpc : postCommitHandle s = (Except.ok (), (postRestore s.stash s).1) := by
        simp only [postCommitHandle]
        rw [if_pos hdir, if_neg hst, if_neg hr2]
      rw [hpc]
      refine ⟨rfl, ?_, ?_, ?_⟩
      · intro kv hm
        exact L1 kv hm
      · intro hall2
        exact absurd hall2 hall
      · intro _
        exact F1

/-- Witness for the amended C4 at the state `sPostCex2`: the single
stash entry is unwritable, so the lock is retained. -/
theorem post_commit_spec_witness :
    (postCommitHandle sPostCex2).2.lock = sPostCex2.lock :=
  ((post_commit_spec sPostCex2 (by decide) (by decide)).2.2 rfl (by decide)).2.2.2
    (by decide)

/-- C5, counterexample: a `restore` scoped to the single path `a`
restores and drops that entry, then deletes the lock file although the
entry for `b` is still in the stash; and a pre-commit run over a crash
state (stash remnant plus malformed lockfile) acquires the lock over the
unparseable lockfile, fails `StashRemaining`, and releases the lock —
both leave a non-empty stash with no lock, breaking the claimed
invariant preservation. -/
theorem stash_lock_invariant_cex :
    (sRestoreCex.stash ≠ [] ∧ sRestoreCex.lock.isSome = true ∧
      (restoreRun (some ("a".toList)) sRestoreCex).2.stash =
        [(("b".toList), ("cb".toList))] ∧
      (restoreRun (some ("a".toList)) sRestoreCex).2.lock = none) ∧
    (sPreCex.stash ≠ [] ∧ sPreCex.lock.isSome = true ∧
      (preCommitHandle envPartial sampleCfg sPreCex).1 =
        Except.error ShadowErr.StashRemaining ∧
      (preCommitHandle envPartial sampleCfg sPreCex).2.stash =
        [(("x".toList), ("c".toList))] ∧
      (preCommitHandle envPartial sampleCfg sPreCex).2.lock = none) :=
  ⟨⟨by decide, rfl, rfl, rfl⟩, by decide, rfl, rfl, rfl, rfl⟩

/-- C5, amended: the one-sided invariant "a non-empty stash implies a
held lock" is preserved by post-commit (on any state satisfying it) and
by an unscoped restore (which always drains the stash), and by
pre-commit from any state whose stash is initially empty.  It is *not*
preserved by a restore scoped to a single path, nor by pre-commit from a
crash state (see the counterexample). -/
theorem stash_lock_invariant :
    (∀ s : SystemState, (s.stash.map Prod.fst).Nodup →
      (s.stash ≠ [] → s.lock.isSome = true) →
      ((postCommitHandle s).2.stash ≠ [] →
        (postCommitHandle s).2.lock.isSome = true)) ∧
    (∀ s : SystemState, (s.stash.map Prod.fst).Nodup →
      (s.stashDirExists = false → s.stash = []) →
      (restoreRun none s).2.stash = []) ∧
    (∀ (env : Env) (cfg : ShadowConfig) (s : SystemState),
      (cfg.files.map Prod.fst).Nodup → s.stash = [] →
      ((preCommitHandle env cfg s).2.stash ≠ [] →
        (preCommitHandle env cfg s).2.lock.isSome = true)) := by
  refine ⟨?_, ?_, ?_⟩
  · intro s hnodup hinv hne
    by_cases hdir : s.stashDirExists = true
    · by_cases hst : s.stash = []
      · rw [postCommitHandle, if_pos hdir, if_pos hst] at hne
        exact absurd hst hne
      · by_cases hr2 : (postRestore s.stash s).2 = []
        · have hempty := postRestore_failed_nil s.stash s rfl hnodup hr2
          have hpc : postCommitHandle s =
              (Except.ok (), releaseLock (postRestore s.stash s).1) := by
            simp only [postCommitHandle]
            rw [if_pos hdir, if_neg hst, if_pos hr2]
          rw [hpc] at hne
          exact absurd hempty hne
        · have hpc : postCommitHandle s = (Except.ok (), (postRestore s.stash s).1) := by
            simp only [postCommitHandle]
            rw [if_pos hdir, if_neg hst, if_neg hr2]
          rw [hpc]
          show ((postRestore s.stash s).1.lock).isSome = true
          rw [(postRestore_fields s.stash s).1]
          exact hinv hst
    · rw [postCommitHandle, if_neg hdir] at hne ⊢
      exact hinv hne
  · intro s hnodup hco
    by_cases hdir : s.stashDirExists = true
    · obtain ⟨s1, hs1, hstash⟩ := restoreSweep_none s.stash s rfl hnodup
      rw [restoreRun, if_pos hdir, hs1]
      exact hstash
    · rw [restoreRun, if_neg hdir]
      show s.stash = []
      refine hco ?_
      revert hdir
      cases s.stashDirExists
      · intro _
        rfl
      · intro hdir
        exact absurd rfl hdir
  · intro env cfg s hkeys hstash hne
    cases hacq : acquire_lock env.lockEnv s.lock with
    | error e =>
      have hfin : preCommitHandle env cfg s = (Except.error e, s) := by
        simp only [preCommitHandle, hacq]
      rw [hfin] at hne
      exact absurd hstash hne
    | ok lk =>
      have hlk := acquire_lock_ok_isSome env.lockEnv s.lock lk hacq
      by_cases hcfg : cfg.files = []
      · have hfin : preCommitHandle env cfg s =
            (Except.ok (), releaseLock { s with lock := lk }) := by
          simp only [preCommitHandle, hacq]
          rw [if_pos hcfg]
        rw [hfin] at hne
        exact absurd hstash hne
      · cases hhc : run_hard_checks { s with lock := lk } cfg with
        | error e =>
          have hfin : preCommitHandle env cfg s =
              (Except.error e, releaseLock { s with lock := lk }) := by
            simp only [preCommitHandle, hacq]
            rw [if_neg hcfg]
            simp only [hhc]
          rw [hfin] at hne
          exact absurd hstash hne
        | ok u =>
          cases hdp : detectPartialStaging env cfg.files with
          | error e =>
            have hfin : preCommitHandle env cfg s =
                (Except.error e, releaseLock { s with lock := lk }) := by
              simp only [preCommitHandle, hacq]
              rw [if_neg hcfg]
              simp only [hhc, hdp]
            rw [hfin] at hne
            exact absurd hstash hne
          | ok u2 =>
            cases hpf : processFiles env cfg.files { s with lock := lk } Txn.new with
            | error r =>
              obtain ⟨er, s1, tx1⟩ := r
              have hfin : preCommitHandle env cfg s =
                  (Except.error er, releaseLock (rollback env tx1 s1)) := by
                simp only [preCommitHandle, hacq]
                rw [if_neg hcfg]
                simp only [hhc, hdp, hpf]
              rw [hfin] at hne
              obtain ⟨⟨hnd, -, hpresv, hwtv, hkv⟩, -, -, -⟩ :=
                processFiles_err_inv env cfg.files _ Txn.new er s1 tx1 [] hpf hkeys
                  (TxnInv_init _ _ hstash)
              obtain ⟨-, r2, -, -, -, -, -, -, -⟩ :=
                rollbackRestore_spec (tx1.stashedOverlays ++ tx1.stashedPhantoms) s1
                  hnd hpresv hwtv
              have hemptyR : ((tx1.stashedOverlays ++ tx1.stashedPhantoms).foldl
                  restoreStashed s1).stash = [] := by
                rw [List.eq_nil_iff_forall_not_mem]
                intro kv hm
                obtain ⟨hm1, hm2⟩ := r2 kv hm
                rcases hkv kv hm1 with ⟨p, hp1, hp2⟩ | h0
                · exact hm2 p hp1 hp2
                · exact absurd h0 (List.not_mem_nil _)
              have hroll : (rollback env tx1 s1).stash = [] := by
                rw [rollback]
                rw [(addFold_spec env tx1.overwritten _).2.2.2.1]
                exact hemptyR
              exact absurd hroll hne
            | ok r =>
              obtain ⟨s1, tx1⟩ := r
              have hfin : preCommitHandle env cfg s = (Except.ok (), s1) := by
                simp only [preCommitHandle, hacq]
                rw [if_neg hcfg]
                simp only [hhc, hdp, hpf]
              rw [hfin]
              show s1.lock.isSome = true
              rw [processFiles_ok_lock env cfg.files _ Txn.new s1 tx1 hpf]
              exact hlk

/-- Witness for the amended C5: post-commit on a failing state keeps the
lock; an unscoped restore of the crash state drains the stash; a clean
pre-commit run keeps the lock while the stash is non-empty. -/
theorem stash_lock_invariant_witness :
    (postCommitHandle sPostCex2).2.lock.isSome = true ∧
    (restoreRun none sRestoreCex).2.stash = [] ∧
    (preCommitHandle envOk sampleCfg sampleStateR).2.lock.isSome = true :=
  ⟨stash_lock_invariant.1 sPostCex2 (by decide) (fun _ => rfl) (by decide),
   stash_lock_invariant.2.1 sRestoreCex (by decide) (fun h => by cases h),
   stash_lock_invariant.2.2 envOk sampleCfg sampleStateR (by decide) rfl (by decide)⟩

lemma setKey_keys_nodup {α : Type} (k : Str) (v : α) (l : List (Str × α))
    (h : (l.map Prod.fst).Nodup) : ((setKey k v l).map Prod.fst).Nodup := by
  rw [setKey, List.map_append]
  have h1 : ((eraseKey k l).map Prod.fst).Nodup :=
    (((eraseKey_sublist k l).map Prod.fst)).nodup h
  have h2 : k ∉ (eraseKey k l).map Prod.fst := by
    intro hm
    obtain ⟨kv, hkv, hk⟩ := List.mem_map.mp hm
    exact ((mem_eraseKey k kv l).mp hkv).2 hk
  rw [List.nodup_append]
  refine ⟨h1, List.nodup_singleton k, ?_⟩
  intro a ha hb
  rw [List.map_cons, List.map_nil, List.mem_singleton] at hb
  have hb' : a = k := hb
  exact h2 (hb' ▸ ha)

lemma mem_keys_exists {α : Type} (q : Str) (l : List (Str × α))
    (h : q ∈ l.map Prod.fst) : ∃ e, (q, e) ∈ l := by
  obtain ⟨kv, hkv, hk⟩ := List.mem_map.mp h
  exact ⟨kv.2, by rw [← hk]; exact hkv⟩

lemma findVal_eq_some_mem {α : Type} : ∀ (l : List (Str × α)) (k : Str) (v : α),
    findVal k l = some v → (k, v) ∈ l := by
  intro l
  induction l with
  | nil => intro k v h; exact absurd h (by rw [findVal]; simp)
  | cons kv rest ih =>
    intro k v h
    rw [findVal] at h
    by_cases hk : kv.1 = k
    · rw [if_pos hk] at h
      have hv : kv.2 = v := Option.some.inj h
      have : (k, v) = kv := by
        rw [← hk, ← hv]
      rw [this]
      exact List.mem_cons_self _ _
    · rw [if_neg hk] at h
      exact List.mem_cons_of_mem _ (ih k v h)

lemma gitAdd_success (env : Env) (s : SystemState) (p c : Str)
    (hok : env.stageOk p = true) (hwt : s.worktree p = some c) :
    gitAdd env s p = (true, { s with
      index := fun q => if q = p then some c else s.index q,
      trace := s.trace ++ [GitOp.stage p] }) := by
  simp only [gitAdd]
  rw [if_pos hok]
  simp only [hwt]

lemma gitUnstage_success (env : Env) (s : SystemState) (p : Str)
    (hok : env.unstageOk p = true) :
    gitUnstage env s p = (true, { s with
      index := fun q => if q = p then none else s.index q,
      trace := s.trace ++ [GitOp.unstage p] }) := by
  simp only [gitUnstage]
  rw [if_pos hok]

lemma processOverlay_ok (env : Env) (s : SystemState) (tx : Txn) (p c b : Str)
    (hwt : s.worktree p = some c) (hdir : s.stashDirExists = true)
    (hbl : s.baselines (encode_path p) = some b) (hok : env.stageOk p = true) :
    processOverlay env s tx p = Except.ok (
      { s with
        worktree := fun q => if q = p then some b else s.worktree q,
        stash := setKey (encode_path p) c s.stash,
        index := fun q => if q = p then some b else s.index q,
        trace := s.trace ++ [GitOp.stage p] },
      { tx with stashedOverlays := tx.stashedOverlays ++ [p],
                overwritten := tx.overwritten ++ [p] }) := by
  have hwt1 : (({ s with stash := setKey (encode_path p) c s.stash } :
      SystemState).worktree p).isSome = true := by
    show (s.worktree p).isSome = true
    rw [hwt]
    rfl
  have hws := wtWrite_of_isSome
    { s with stash := setKey (encode_path p) c s.stash } p b hwt1
  have hga := gitAdd_success env
    (wtSet { s with stash := setKey (encode_path p) c s.stash } p b) p b hok
    (by rw [wtSet_at])
  simp only [processOverlay, hwt, stashWrite_of_dir s _ _ hdir, hbl, hws, hga]
  rfl

lemma processPhantom_ok_file (env : Env) (s : SystemState) (tx : Txn) (p c : Str)
    (e : FileEntry) (hdirE : e.is_directory = false) (hwt : s.worktree p = some c)
    (hdir : s.stashDirExists = true) (hok : env.unstageOk p = true) :
    processPhantom env s tx p e = Except.ok (
      { s with stash := setKey (encode_path p) c s.stash,
               index := fun q => if q = p then none else s.index q,
               trace := s.trace ++ [GitOp.unstage p] },
      { tx with stashedPhantoms := tx.stashedPhantoms ++ [p] }) := by
  have hne : ¬ (e.is_directory = true) := by
    rw [hdirE]
    exact Bool.false_ne_true
  have hgu := gitUnstage_success env
    { s with stash := setKey (encode_path p) c s.stash } p hok
  rw [processPhantom, if_neg hne]
  simp only [hwt, stashWrite_of_dir s _ _ hdir, hgu]

lemma processPhantom_ok_absent (env : Env) (s : SystemState) (tx : Txn) (p : Str)
    (e : FileEntry) (hdirE : e.is_directory = false) (hwt : s.worktree p = none)
    (hok : env.unstageOk p = true) :
    processPhantom env s tx p e = Except.ok (
      { s with index := fun q => if q = p then none else s.index q,
               trace := s.trace ++ [GitOp.unstage p] }, tx) := by
  have hne : ¬ (e.is_directory = true) := by
    rw [hdirE]
    exact Bool.false_ne_true
  have hgu := gitUnstage_success env s p hok
  rw [processPhantom, if_neg hne]
  simp only [hwt, hgu]

lemma processPhantom_ok_dir (env : Env) (s : SystemState) (tx : Txn) (p : Str)
    (e : FileEntry) (hdirE : e.is_directory = true) (hok : env.unstageOk p = true) :
    processPhantom env s tx p e = Except.ok (
      { s with index := fun q => if q = p then none else s.index q,
               trace := s.trace ++ [GitOp.unstage p] }, tx) := by
  have hgu := gitUnstage_success env s p hok
  rw [processPhantom, if_pos hdirE]
  simp only [hgu]

/-- Success path of `process_files`: with distinct registry paths, every
overlay backed by a worktree file and a baseline, no stale stash entries,
a present stash directory and git subprocesses that succeed, the loop
succeeds; each overlay ends with the baseline in worktree and index and
its shadow bytes in the stash, each file phantom keeps the worktree and
drops its index entry, and untouched paths keep all their state. -/
lemma processFiles_ok (env : Env)
    (hstage : ∀ q, env.stageOk q = true)
    (hunstage : ∀ q, env.unstageOk q = true) :
    ∀ (l : List (Str × FileEntry)) (s : SystemState) (tx : Txn),
    (l.map Prod.fst).Nodup →
    (∀ q e', (q, e') ∈ l → e'.file_type = FileType.Overlay →
        (s.worktree q).isSome = true ∧ (s.baselines (encode_path q)).isSome = true) →
    (∀ q, q ∈ l.map Prod.fst → findVal (encode_path q) s.stash = none) →
    s.stashDirExists = true →
    ∃ s1 tx1, processFiles env l s tx = Except.ok (s1, tx1) ∧
      s1.lock = s.lock ∧ s1.stashDirExists = true ∧ s1.dirs = s.dirs ∧
      s1.baselines = s.baselines ∧
      (∀ q, q ∉ l.map Prod.fst → s1.worktree q = s.worktree q ∧
          s1.index q = s.index q ∧
          findVal (encode_path q) s1.stash = findVal (encode_path q) s.stash) ∧
      (∀ q e', (q, e') ∈ l →
        (e'.file_type = FileType.Overlay →
          s1.worktree q = s.baselines (encode_path q) ∧
          s1.index q = s.baselines (encode_path q) ∧
          findVal (encode_path q) s1.stash = s.worktree q) ∧
        (e'.file_type = FileType.Phantom → e'.is_directory = false →
          s1.worktree q = s.worktree q ∧ s1.index q = none ∧
          findVal (encode_path q) s1.stash = s.worktree q) ∧
        (e'.file_type = FileType.Phantom → e'.is_directory = true →
          s1.worktree q = s.worktree q ∧ s1.index q = none ∧
          findVal (encode_path q) s1.stash = none)) ∧
      (∀ kv, kv ∈ s1.stash →
          kv ∈ s.stash ∨ ∃ q, q ∈ l.map Prod.fst ∧ kv.1 = encode_path q) ∧
      ((s.stash.map Prod.fst).Nodup → (s1.stash.map Prod.fst).Nodup) := by
  intro l
  induction l with
  | nil =>
    intro s tx _ _ _ hdirS
    refine ⟨s, tx, rfl, rfl, hdirS, rfl, rfl, fun q _ => ⟨rfl, rfl, rfl⟩,
      fun q e' hm => absurd hm (List.not_mem_nil _),
      fun kv hm => Or.inl hm, fun h => h⟩
  | cons pe rest ih =>
    obtain ⟨p, e⟩ := pe
    intro s tx hnd hover hstash0 hdirS
    rw [List.map_cons, List.nodup_cons] at hnd
    have hpnot : p ∉ rest.map Prod.fst := hnd.1
    have hneq : ∀ (q : Str) (e' : FileEntry), (q, e') ∈ rest → ¬ q = p := by
      intro q e' hm he
      exact hpnot (he ▸ List.mem_map.mpr ⟨(q, e'), hm, rfl⟩)
    have hkeyne : ∀ q : Str, q ∈ rest.map Prod.fst → ¬ q = p := by
      intro q hm he
      exact hpnot (he ▸ hm)
    cases hft : e.file_type with
    | Overlay =>
      obtain ⟨hw1, hw2⟩ := hover p e (List.mem_cons_self _ _) hft
      obtain ⟨c, hwt⟩ := Option.isSome_iff_exists.mp hw1
      obtain ⟨b, hbl⟩ := Option.isSome_iff_exists.mp hw2
      set S3 : SystemState := { s with
        worktree := fun q => if q = p then some b else s.worktree q,
        stash := setKey (encode_path p) c s.stash,
        index := fun q => if q = p then some b else s.index q,
        trace := s.trace ++ [GitOp.stage p] } with hS3def
      set TX2 : Txn := { tx with
        stashedOverlays := tx.stashedOverlays ++ [p],
        overwritten := tx.overwritten ++ [p] } with hTX2def
      have hS3stash : S3.stash = setKey (encode_path p) c s.stash := by
        rw [hS3def]
      have hS3lock : S3.lock = s.lock := by
        rw [hS3def]
      have hS3dirs : S3.dirs = s.dirs := by
        rw [hS3def]
      have hS3bl : S3.baselines = s.baselines := by
        rw [hS3def]
      have hS3sd : S3.stashDirExists = true := by
        rw [hS3def]
        exact hdirS
      have hS3wt_ne : ∀ q : Str, ¬ q = p → S3.worktree q = s.worktree q := by
        intro q hq
        rw [hS3def]
        show (if q = p then some b else s.worktree q) = s.worktree q
        rw [if_neg hq]
      have hS3idx_ne : ∀ q : Str, ¬ q = p → S3.index q = s.index q := by
        intro q hq
        rw [hS3def]
        show (if q = p then some b else s.index q) = s.index q
        rw [if_neg hq]
      have hS3wt_p : S3.worktree p = some b := by
        rw [hS3def]
        show (if p = p then some b else s.worktree p) = some b
        rw [if_pos rfl]
      have hS3idx_p : S3.index p = some b := by
        rw [hS3def]
        show (if p = p then some b else s.index p) = some b
        rw [if_pos rfl]
      have hover' : ∀ q e', (q, e') ∈ rest → e'.file_type = FileType.Overlay →
          (S3.worktree q).isSome = true ∧
          (S3.baselines (encode_path q)).isSome = true := by
        intro q e' hm hov'
        obtain ⟨w1, w2⟩ := hover q e' (List.mem_cons_of_mem _ hm) hov'
        refine ⟨?_, ?_⟩
        · rw [hS3wt_ne q (hneq q e' hm)]
          exact w1
        · rw [hS3bl]
          exact w2
      have hstash0' : ∀ q, q ∈ rest.map Prod.fst →
          findVal (encode_path q) S3.stash = none := by
        intro q hm
        rw [hS3stash,
          findVal_setKey_ne _ _ _ _ (fun hee => hkeyne q hm (encode_path_injective hee))]
        exact hstash0 q (List.mem_cons_of_mem _ hm)
      obtain ⟨s1, tx1, ihrun, ihlock, ihsd, ihdirs, ihbl, ihun, ihper, ihkv, ihnd⟩ :=
        ih S3 TX2 hnd.2 hover' hstash0' hS3sd
      have hstep : processFiles env ((p, e) :: rest) s tx =
          processFiles env rest S3 TX2 := by
        rw [hS3def, hTX2def, processFiles]
        simp only [hft, processOverlay_ok env s tx p c b hwt hdirS hbl (hstage p)]
      refine ⟨s1, tx1, ?_, ?_, ihsd, ?_, ?_, ?_, ?_, ?_, ?_⟩
      · rw [hstep]
        exact ihrun
      · rw [ihlock, hS3lock]
      · rw [ihdirs, hS3dirs]
      · rw [ihbl, hS3bl]
      · intro q hq
        rw [List.map_cons, List.mem_cons] at hq
        push_neg at hq
        obtain ⟨u1, u2, u3⟩ := ihun q hq.2
        refine ⟨?_, ?_, ?_⟩
        · rw [u1, hS3wt_ne q hq.1]
        · rw [u2, hS3idx_ne q hq.1]
        · rw [u3, hS3stash,
            findVal_setKey_ne _ _ _ _ (fun hee => hq.1 (encode_path_injective hee))]
      · intro q e' hm
        rcases List.mem_cons.mp hm with h1 | h1
        · rw [Prod.mk.injEq] at h1
          obtain ⟨hq, he⟩ := h1
          subst hq
          subst he
          obtain ⟨u1, u2, u3⟩ := ihun q hpnot
          refine ⟨?_, ?_, ?_⟩
          · intro _
            refine ⟨?_, ?_, ?_⟩
            · rw [u1, hS3wt_p, hbl]
            · rw [u2, hS3idx_p, hbl]
            · rw [u3, hS3stash, findVal_setKey_self, hwt]
          · intro hph
            rw [hft] at hph
            exact absurd hph (fun hco => FileType.noConfusion hco)
          · intro hph
            rw [hft] at hph
            exact absurd hph (fun hco => FileType.noConfusion hco)
        · obtain ⟨c1, c2, c3⟩ := ihper q e' h1
          have hqp : ¬ q = p := hneq q e' h1
          refine ⟨?_, ?_, ?_⟩
          · intro hov'
            obtain ⟨d1, d2, d3⟩ := c1 hov'
            refine ⟨?_, ?_, ?_⟩
            · rw [d1, hS3bl]
            · rw [d2, hS3bl]
            · rw [d3, hS3wt_ne q hqp]
          · intro hph hdf
            obtain ⟨d1, d2, d3⟩ := c2 hph hdf
            refine ⟨?_, d2, ?_⟩
            · rw [d1, hS3wt_ne q hqp]
            · rw [d3, hS3wt_ne q hqp]
          · intro hph hdt
            obtain ⟨d1, d2, d3⟩ := c3 hph hdt
            refine ⟨?_, d2, d3⟩
            rw [d1, hS3wt_ne q hqp]
      · intro kv hkv
        rcases ihkv kv hkv with h1 | h1
        · rw [hS3stash, setKey] at h1
          rcases List.mem_append.mp h1 with h2 | h2
          · exact Or.inl ((mem_eraseKey _ _ _).mp h2).1
          · rw [List.mem_singleton] at h2
            refine Or.inr ⟨p, ?_, ?_⟩
            · rw [List.map_cons]
              exact List.mem_cons_self _ _
            · rw [h2]
        · obtain ⟨q, hq1, hq2⟩ := h1
          refine Or.inr ⟨q, ?_, hq2⟩
          rw [List.map_cons]
          exact List.mem_cons_of_mem _ hq1
      · intro hnds
        refine ihnd ?_
        rw [hS3stash]
        exact setKey_keys_nodup _ _ _ hnds
    | Phantom =>
      cases hdf : e.is_directory with
      | false =>
        cases hwt : s.worktree p with
        | some c =>
          set S3 : SystemState := { s with
            stash := setKey (encode_path p) c s.stash,
            index := fun q => if q = p then none else s.index q,
            trace := s.trace ++ [GitOp.unstage p] } with hS3def
          set TX2 : Txn := { tx with
            stashedPhantoms := tx.stashedPhantoms ++ [p] } with hTX2def
          have hS3stash : S3.stash = setKey (encode_path p) c s.stash := by
            rw [hS3def]
          have hS3lock : S3.lock = s.lock := by
            rw [hS3def]
          have hS3dirs : S3.dirs = s.dirs := by
            rw [hS3def]
          have hS3bl : S3.baselines = s.baselines := by
            rw [hS3def]
          have hS3wtf : S3.worktree = s.worktree := by
            rw [hS3def]
          have hS3sd : S3.stashDirExists = true := by
            rw [hS3def]
            exact hdirS
          have hS3idx_ne : ∀ q : Str, ¬ q = p → S3.index q = s.index q := by
            intro q hq
            rw [hS3def]
            show (if q = p then none else s.index q) = s.index q
            rw [if_neg hq]
          have hS3idx_p : S3.index p = none := by
            rw [hS3def]
            show (if p = p then none else s.index p) = none
            rw [if_pos rfl]
          have hover' : ∀ q e', (q, e') ∈ rest → e'.file_type = FileType.Overlay →
              (S3.worktree q).isSome = true ∧
              (S3.baselines (encode_path q)).isSome = true := by
            intro q e' hm hov'
            obtain ⟨w1, w2⟩ := hover q e' (List.mem_cons_of_mem _ hm) hov'
            refine ⟨?_, ?_⟩
            · rw [hS3wtf]
              exact w1
            · rw [hS3bl]
              exact w2
          have hstash0' : ∀ q, q ∈ rest.map Prod.fst →
              findVal (encode_path q) S3.stash = none := by
            intro q hm
            rw [hS3stash,
              findVal_setKey_ne _ _ _ _
                (fun hee => hkeyne q hm (encode_path_injective hee))]
            exact hstash0 q (List.mem_cons_of_mem _ hm)
          obtain ⟨s1, tx1, ihrun, ihlock, ihsd, ihdirs, ihbl, ihun, ihper, ihkv, ihnd⟩ :=
            ih S3 TX2 hnd.2 hover' hstash0' hS3sd
          have hstep : processFiles env ((p, e) :: rest) s tx =
              processFiles env rest S3 TX2 := by
            rw [hS3def, hTX2def, processFiles]
            simp only [hft, processPhantom_ok_file env s tx p c e hdf hwt hdirS
              (hunstage p)]
          refine ⟨s1, tx1, ?_, ?_, ihsd, ?_, ?_, ?_, ?_, ?_, ?_⟩
          · rw [hstep]
            exact ihrun
          · rw [ihlock, hS3lock]
          · rw [ihdirs, hS3dirs]
          · rw [ihbl, hS3bl]
          · intro q hq
            rw [List.map_cons, List.mem_cons] at hq
            push_neg at hq
            obtain ⟨u1, u2, u3⟩ := ihun q hq.2
            refine ⟨?_, ?_, ?_⟩
            · rw [u1, hS3wtf]
            · rw [u2, hS3idx_ne q hq.1]
            · rw [u3, hS3stash,
                findVal_setKey_ne _ _ _ _ (fun hee => hq.1 (encode_path_injective hee))]
          · intro q e' hm
            rcases List.mem_cons.mp hm with h1 | h1
            · rw [Prod.mk.injEq] at h1
              obtain ⟨hq, he⟩ := h1
              subst hq
              subst he
              obtain ⟨u1, u2, u3⟩ := ihun q hpnot
              refine ⟨?_, ?_, ?_⟩
              · intro hph
                rw [hft] at hph
                exact absurd hph (fun hco => FileType.noConfusion hco)
              · intro _ _
                refine ⟨?_, ?_, ?_⟩
                · rw [u1, hS3wtf]
                · rw [u2, hS3idx_p]
                · rw [u3, hS3stash, findVal_setKey_self, hwt]
              · intro _ hdt
                rw [hdf] at hdt
                exact absurd hdt Bool.false_ne_true
            · obtain ⟨c1, c2, c3⟩ := ihper q e' h1
              refine ⟨?_, ?_, ?_⟩
              · intro hov'
                obtain ⟨d1, d2, d3⟩ := c1 hov'
                refine ⟨?_, ?_, ?_⟩
                · rw [d1, hS3bl]
                · rw [d2, hS3bl]
                · rw [d3, hS3wtf]
              · intro hph hdf'
                obtain ⟨d1, d2, d3⟩ := c2 hph hdf'
                refine ⟨?_, d2, ?_⟩
                · rw [d1, hS3wtf]
                · rw [d3, hS3wtf]
              · intro hph hdt
                obtain ⟨d1, d2, d3⟩ := c3 hph hdt
                refine ⟨?_, d2, d3⟩
                rw [d1, hS3wtf]
          · intro kv hkv
            rcases ihkv kv hkv with h1 | h1
            · rw [hS3stash, setKey] at h1
              rcases List.mem_append.mp h1 with h2 | h2
              · exact Or.inl ((mem_eraseKey _ _ _).mp h2).1
              · rw [List.mem_singleton] at h2
                refine Or.inr ⟨p, ?_, ?_⟩
                · rw [List.map_cons]
                  exact List.mem_cons_self _ _
                · rw [h2]
            · obtain ⟨q, hq1, hq2⟩ := h1
              refine Or.inr ⟨q, ?_, hq2⟩
              rw [List.map_cons]
              exact List.mem_cons_of_mem _ hq1
          · intro hnds
            refine ihnd ?_
            rw [hS3stash]
            exact setKey_keys_nodup _ _ _ hnds
        | none =>
          set S3 : SystemState := { s with
            index := fun q => if q = p then none else s.index q,
            trace := s.trace ++ [GitOp.unstage p] } with hS3def
          have hS3stash : S3.stash = s.stash := by
            rw [hS3def]
          have hS3lock : S3.lock = s.lock := by
            rw [hS3def]
          have hS3dirs : S3.dirs = s.dirs := by
            rw [hS3def]
          have hS3bl : S3.baselines = s.baselines := by
            rw [hS3def]
          have hS3wtf : S3.worktree = s.worktree := by
            rw [hS3def]
          have hS3sd : S3.stashDirExists = true := by
            rw [hS3def]
            exact hdirS
          have hS3idx_ne : ∀ q : Str, ¬ q = p → S3.index q = s.index q := by
            intro q hq
            rw [hS3def]
            show (if q = p then none else s.index q) = s.index q
            rw [if_neg hq]
          have hS3idx_p : S3.index p = none := by
            rw [hS3def]
            show (if p = p then none else s.index p) = none
            rw [if_pos rfl]
          have hpmem : p ∈ ((p, e) :: rest).map Prod.fst := by
            rw [List.map_cons]
            exact List.mem_cons_self _ _
          have hover' : ∀ q e', (q, e') ∈ rest → e'.file_type = FileType.Overlay →
              (S3.worktree q).isSome = true ∧
              (S3.baselines (encode_path q)).isSome = true := by
            intro q e' hm hov'
            obtain ⟨w1, w2⟩ := hover q e' (List.mem_cons_of_mem _ hm) hov'
            refine ⟨?_, ?_⟩
            · rw [hS3wtf]
              exact w1
            · rw [hS3bl]
              exact w2
          have hstash0' : ∀ q, q ∈ rest.map Prod.fst →
              findVal (encode_path q) S3.stash = none := by
            intro q hm
            rw [hS3stash]
            exact hstash0 q (List.mem_cons_of_mem _ hm)
          obtain ⟨s1, tx1, ihrun, ihlock, ihsd, ihdirs, ihbl, ihun, ihper, ihkv, ihnd⟩ :=
            ih S3 tx hnd.2 hover' hstash0' hS3sd
          have hstep : processFiles env ((p, e) :: rest) s tx =
              processFiles env rest S3 tx := by
            rw [hS3def, processFiles]
            simp only [hft, processPhantom_ok_absent env s tx p e hdf hwt (hunstage p)]
          refine ⟨s1, tx1, ?_, ?_, ihsd, ?_, ?_, ?_, ?_, ?_, ?_⟩
          · rw [hstep]
            exact ihrun
          · rw [ihlock, hS3lock]
          · rw [ihdirs, hS3dirs]
          · rw [ihbl, hS3bl]
          · intro q hq
            rw [List.map_cons, List.mem_cons] at hq
            push_neg at hq
            obtain ⟨u1, u2, u3⟩ := ihun q hq.2
            refine ⟨?_, ?_, ?_⟩
            · rw [u1, hS3wtf]
            · rw [u2, hS3idx_ne q hq.1]
            · rw [u3, hS3stash]
          · intro q e' hm
            rcases List.mem_cons.mp hm with h1 | h1
            · rw [Prod.mk.injEq] at h1
              obtain ⟨hq, he⟩ := h1
              subst hq
              subst he
              obtain ⟨u1, u2, u3⟩ := ihun q hpnot
              refine ⟨?_, ?_, ?_⟩
              · intro hph
                rw [hft] at hph
                exact absurd hph (fun hco => FileType.noConfusion hco)
              · intro _ _
                refine ⟨?_, ?_, ?_⟩
                · rw [u1, hS3wtf]
                · rw [u2, hS3idx_p]
                · rw [u3, hS3stash, hwt]
                  exact hstash0 q hpmem
              · intro _ hdt
                rw [hdf] at hdt
                exact absurd hdt Bool.false_ne_true
            · obtain ⟨c1, c2, c3⟩ := ihper q e' h1
              refine ⟨?_, ?_, ?_⟩
              · intro hov'
                obtain ⟨d1, d2, d3⟩ := c1 hov'
                refine ⟨?_, ?_, ?_⟩
                · rw [d1, hS3bl]
                · rw [d2, hS3bl]
                · rw [d3, hS3wtf]
              · intro hph hdf'
                obtain ⟨d1, d2, d3⟩ := c2 hph hdf'
                refine ⟨?_, d2, ?_⟩
                · rw [d1, hS3wtf]
                · rw [d3, hS3wtf]
              · intro hph hdt
                obtain ⟨d1, d2, d3⟩ := c3 hph hdt
                refine ⟨?_, d2, d3⟩
                rw [d1, hS3wtf]
          · intro kv hkv
            rcases ihkv kv hkv with h1 | h1
            · rw [hS3stash] at h1
              exact Or.inl h1
            · obtain ⟨q, hq1, hq2⟩ := h1
              refine Or.inr ⟨q, ?_, hq2⟩
              rw [List.map_cons]
              exact List.mem_cons_of_mem _ hq1
          · intro hnds
            refine ihnd ?_
            rw [hS3stash]
            exact hnds
      | true =>
        set S3 : SystemState := { s with
          index := fun q => if q = p then none else s.index q,
          trace := s.trace ++ [GitOp.unstage p] } with hS3def
        have hS3stash : S3.stash = s.stash := by
          rw [hS3def]
        have hS3lock : S3.lock = s.lock := by
          rw [hS3def]
        have hS3dirs : S3.dirs = s.dirs := by
          rw [hS3def]
        have hS3bl : S3.baselines = s.baselines := by
          rw [hS3def]
        have hS3wtf : S3.worktree = s.worktree := by
          rw [hS3def]
        have hS3sd : S3.stashDirExists = true := by
          rw [hS3def]
          exact hdirS
        have hS3idx_ne : ∀ q : Str, ¬ q = p → S3.index q = s.index q := by
          intro q hq
          rw [hS3def]
          show (if q = p then none else s.index q) = s.index q
          rw [if_neg hq]
        have hS3idx_p : S3.index p = none := by
          rw [hS3def]
          show (if p = p then none else s.index p) = none
          rw [if_pos rfl]
        have hpmem : p ∈ ((p, e) :: rest).map Prod.fst := by
          rw [List.map_cons]
          exact List.mem_cons_self _ _
        have hover' : ∀ q e', (q, e') ∈ rest → e'.file_type = FileType.Overlay →
            (S3.worktree q).isSome = true ∧
            (S3.baselines (encode_path q)).isSome = true := by
          intro q e' hm hov'
          obtain ⟨w1, w2⟩ := hover q e' (List.mem_cons_of_mem _ hm) hov'
          refine ⟨?_, ?_⟩
          · rw [hS3wtf]
            exact w1
          · rw [hS3bl]
            exact w2
        have hstash0' : ∀ q, q ∈ rest.map Prod.fst →
            findVal (encode_path q) S3.stash = none := by
          intro q hm
          rw [hS3stash]
          exact hstash0 q (List.mem_cons_of_mem _ hm)
        obtain ⟨s1, tx1, ihrun, ihlock, ihsd, ihdirs, ihbl, ihun, ihper, ihkv, ihnd⟩ :=
          ih S3 tx hnd.2 hover' hstash0' hS3sd
        have hstep : processFiles env ((p, e) :: rest) s tx =
            processFiles env rest S3 tx := by
          rw [hS3def, processFiles]
          simp only [hft, processPhantom_ok_dir env s tx p e hdf (hunstage p)]
        refine ⟨s1, tx1, ?_, ?_, ihsd, ?_, ?_, ?_, ?_, ?_, ?_⟩
        · rw [hstep]
          exact ihrun
        · rw [ihlock, hS3lock]
        · rw [ihdirs, hS3dirs]
        · rw [ihbl, hS3bl]
        · intro q hq
          rw [List.map_cons, List.mem_cons] at hq
          push_neg at hq
          obtain ⟨u1, u2, u3⟩ := ihun q hq.2
          refine ⟨?_, ?_, ?_⟩
          · rw [u1, hS3wtf]
          · rw [u2, hS3idx_ne q hq.1]
          · rw [u3, hS3stash]
        · intro q e' hm
          rcases List.mem_cons.mp hm with h1 | h1
          · rw [Prod.mk.injEq] at h1
            obtain ⟨hq, he⟩ := h1
            subst hq
            subst he
            obtain ⟨u1, u2, u3⟩ := ihun q hpnot
            refine ⟨?_, ?_, ?_⟩
            · intro hph
              rw [hft] at hph
              exact absurd hph (fun hco => FileType.noConfusion hco)
            · intro _ hdf'
              rw [hdf] at hdf'
              exact absurd hdf' (fun hco => Bool.noConfusion hco)
            · intro _ _
              refine ⟨?_, ?_, ?_⟩
              · rw [u1, hS3wtf]
              · rw [u2, hS3idx_p]
              · rw [u3, hS3stash]
                exact hstash0 q hpmem
          · obtain ⟨c1, c2, c3⟩ := ihper q e' h1
            refine ⟨?_, ?_, ?_⟩
            · intro hov'
              obtain ⟨d1, d2, d3⟩ := c1 hov'
              refine ⟨?_, ?_, ?_⟩
              · rw [d1, hS3bl]
              · rw [d2, hS3bl]
              · rw [d3, hS3wtf]
            · intro hph hdf'
              obtain ⟨d1, d2, d3⟩ := c2 hph hdf'
              refine ⟨?_, d2, ?_⟩
              · rw [d1, hS3wtf]
              · rw [d3, hS3wtf]
            · intro hph hdt
              obtain ⟨d1, d2, d3⟩ := c3 hph hdt
              refine ⟨?_, d2, d3⟩
              rw [d1, hS3wtf]
        · intro kv hkv
          rcases ihkv kv hkv with h1 | h1
          · rw [hS3stash] at h1
            exact Or.inl h1
          · obtain ⟨q, hq1, hq2⟩ := h1
            refine Or.inr ⟨q, ?_, hq2⟩
            rw [List.map_cons]
            exact List.mem_cons_of_mem _ hq1
        · intro hnds
          refine ihnd ?_
          rw [hS3stash]
          exact hnds

/-- C1: for an Overlay entry with baseline `B` and shadow worktree
content `S`, in a clean state (empty stash, free lock, stash directory
present, every overlay backed by worktree and baseline files, no partial
staging, all git subprocesses succeeding), pre-commit succeeds and
stages `B` for the path; post-commit then succeeds and yields a state in
which the index still holds `B`, the worktree holds `S` again, the stash
is empty and the lock is released. -/
theorem commit_cycle (env : Env) (cfg : ShadowConfig) (s : SystemState)
    (p : Str) (e : FileEntry) (B S : Str)
    (hstage : ∀ q, env.stageOk q = true)
    (hunstage : ∀ q, env.unstageOk q = true)
    (hpart : ∀ q, ¬ ((env.stagingStatus q).1 = true ∧ (env.stagingStatus q).2 = true))
    (hkeys : (cfg.files.map Prod.fst).Nodup)
    (hmem : (p, e) ∈ cfg.files) (hov : e.file_type = FileType.Overlay)
    (hover : ∀ q e', (q, e') ∈ cfg.files → e'.file_type = FileType.Overlay →
        (s.worktree q).isSome = true ∧ (s.baselines (encode_path q)).isSome = true)
    (hB : s.baselines (encode_path p) = some B) (hS : s.worktree p = some S)
    (hlock : s.lock = none) (hstash : s.stash = []) (hdir : s.stashDirExists = true) :
    ∃ s1, preCommitHandle env cfg s = (Except.ok (), s1) ∧ s1.index p = some B ∧
      ∃ s2, postCommitHandle s1 = (Except.ok (), s2) ∧
        s2.index p = some B ∧ s2.worktree p = some S ∧
        s2.stash = [] ∧ s2.lock = none := by
  have hcfgne : ¬ cfg.files = [] := by
    intro h0
    rw [h0] at hmem
    exact List.not_mem_nil _ hmem
  cases hacq : acquire_lock env.lockEnv s.lock with
  | error er =>
    rw [hlock] at hacq
    simp only [acquire_lock] at hacq
    exact Except.noConfusion hacq
  | ok lk =>
    have hhc : run_hard_checks { s with lock := lk } cfg = Except.ok () :=
      run_hard_checks_ok _ cfg (show s.stash = [] from hstash)
        (fun q e' hm hov' => hover q e' hm hov')
    have hdp : detectPartialStaging env cfg.files = Except.ok () :=
      detectPartial_ok env cfg.files (fun q e' _ _ => hpart q)
    obtain ⟨s1, tx1, pfrun, pflock, pfsd, pfdirs, pfbl, pfun, pfper, pfkv, pfnd⟩ :=
      processFiles_ok env hstage hunstage cfg.files { s with lock := lk } Txn.new hkeys
        (fun q e' hm hov' => hover q e' hm hov')
        (by
          intro q _
          show findVal (encode_path q) s.stash = none
          rw [hstash, findVal])
        (show s.stashDirExists = true from hdir)
    have hfin : preCommitHandle env cfg s = (Except.ok (), s1) := by
      simp only [preCommitHandle, hacq]
      rw [if_neg hcfgne]
      simp only [hhc, hdp, pfrun]
    obtain ⟨ov1, ov2, ov3⟩ := (pfper p e hmem).1 hov
    have hidx1 : s1.index p = some B := by
      rw [ov2]
      exact hB
    have hst_p : findVal (encode_path p) s1.stash = some S := by
      rw [ov3]
      exact hS
    have hne_stash : ¬ s1.stash = [] := by
      intro h0
      rw [h0, findVal] at hst_p
      exact Option.noConfusion hst_p
    have hnd1 : (s1.stash.map Prod.fst).Nodup := by
      refine pfnd ?_
      show (s.stash.map Prod.fst).Nodup
      rw [hstash]
      exact List.nodup_nil
    have himg : ∀ kv, kv ∈ s1.stash →
        ∃ q, q ∈ cfg.files.map Prod.fst ∧ kv.1 = encode_path q := by
      intro kv hkv
      rcases pfkv kv hkv with h1 | h1
      · have h1' : kv ∈ s.stash := h1
        rw [hstash] at h1'
        exact absurd h1' (List.not_mem_nil _)
      · exact h1
    have hkey_img : ∀ k, k ∈ s1.stash.map Prod.fst → ∃ q, k = encode_path q := by
      intro k hk
      obtain ⟨kv, hkv, hke⟩ := List.mem_map.mp hk
      obtain ⟨q, _, hqe⟩ := himg kv hkv
      exact ⟨q, by rw [← hke]; exact hqe⟩
    have hinj : ∀ x ∈ s1.stash.map Prod.fst, ∀ y ∈ s1.stash.map Prod.fst,
        decode_path x = decode_path y → x = y := by
      intro x hx y hy hde
      obtain ⟨qx, hqx⟩ := hkey_img x hx
      obtain ⟨qy, hqy⟩ := hkey_img y hy
      rw [hqx, hqy, decode_encode_path, decode_encode_path] at hde
      rw [hqx, hqy, hde]
    have hdecnd : (s1.stash.map (fun kv => decode_path kv.1)).Nodup := by
      have hcomp : s1.stash.map (fun kv => decode_path kv.1) =
          (s1.stash.map Prod.fst).map decode_path := by
        rw [List.map_map]
        rfl
      rw [hcomp]
      exact List.Nodup.map_on hinj hnd1
    have hall : ∀ kv, kv ∈ s1.stash → canWrite s1 (decode_path kv.1) := by
      intro kv hkv
      obtain ⟨q, hqm, hqe⟩ := himg kv hkv
      have hksome : (findVal (encode_path q) s1.stash).isSome = true :=
        findVal_isSome_of_mem_keys _ _ (List.mem_map.mpr ⟨kv, hkv, hqe⟩)
      rw [hqe, decode_encode_path]
      refine Or.inr (Or.inr ?_)
      obtain ⟨e', he'⟩ := mem_keys_exists q cfg.files hqm
      obtain ⟨cl1, cl2, cl3⟩ := pfper q e' he'
      cases hft : e'.file_type with
      | Overlay =>
        obtain ⟨d1, -, -⟩ := cl1 hft
        rw [d1]
        exact (hover q e' he' hft).2
      | Phantom =>
        cases hdf : e'.is_directory with
        | false =>
          obtain ⟨d1, -, d3⟩ := cl2 hft hdf
          rw [d3] at hksome
          rw [d1]
          exact hksome
        | true =>
          obtain ⟨-, -, d3⟩ := cl3 hft hdf
          rw [d3] at hksome
          exact absurd hksome (by decide)
    obtain ⟨per, piff, puntouched, pnone, pkeep⟩ :=
      postRestore_perfile s1.stash s1 hnd1 hdecnd
        (fun kv hkv => findVal_of_mem_nodup s1.stash hnd1 kv hkv)
    have hfail : (postRestore s1.stash s1).2 = [] :=
      piff.mpr (fun kv hkv => hall kv hkv)
    have hfin2 : postCommitHandle s1 =
        (Except.ok (), releaseLock (postRestore s1.stash s1).1) := by
      simp only [postCommitHandle]
      rw [if_pos pfsd, if_neg hne_stash, if_pos hfail]
    refine ⟨s1, hfin, hidx1, releaseLock (postRestore s1.stash s1).1, hfin2,
      ?_, ?_, ?_, rfl⟩
    · show (postRestore s1.stash s1).1.index p = some B
      rw [(postRestore_fields s1.stash s1).2.1]
      exact hidx1
    · show (postRestore s1.stash s1).1.worktree p = some S
      have hkvp : ((encode_path p, S) : Str × Str) ∈ s1.stash :=
        findVal_eq_some_mem s1.stash (encode_path p) S hst_p
      obtain ⟨pw, -⟩ := (per (encode_path p, S) hkvp).1 (hall _ hkvp)
      rw [← decode_encode_path p]
      exact pw
    · show (postRestore s1.stash s1).1.stash = []
      exact postRestore_failed_nil s1.stash s1 rfl hnd1 hfail

/-- Witness for C1: the one-overlay sample registry, baseline `OLD` and
shadow content `WT`, under an environment whose git operations all
succeed. -/
theorem commit_cycle_witness :
    ∃ s1, preCommitHandle envOk sampleCfg sampleStateR = (Except.ok (), s1) ∧
      s1.index ("f".toList) = some ("OLD".toList) ∧
      ∃ s2, postCommitHandle s1 = (Except.ok (), s2) ∧
        s2.index ("f".toList) = some ("OLD".toList) ∧
        s2.worktree ("f".toList) = some ("WT".toList) ∧
        s2.stash = [] ∧ s2.lock = none :=
  commit_cycle envOk sampleCfg sampleStateR ("f".toList) sampleEntry
    ("OLD".toList) ("WT".toList)
    (fun _ => rfl) (fun _ => rfl)
    (fun q h => Bool.noConfusion h.1)
    (by decide)
    (List.mem_cons_self _ _)
    rfl
    (by
      intro q e' hm _
      have hm' : (q, e') ∈ [(("f".toList : Str), sampleEntry)] := hm
      rw [List.mem_singleton] at hm'
      have hq : q = ("f".toList) := congrArg Prod.fst hm'
      subst hq
      exact ⟨by decide, by decide⟩)
    (by decide) (by decide) rfl rfl rfl

end GitShadow
